import Mathlib

/-!
Verification of the frost-ui WASM binding layer (frost-wasm, frost-zcash-wasm,
xeddsa-wasm) against its natural-language specification.

The Rust sources are thin binding layers: hex and structured-record codecs,
`BTreeMap` assembly of commitment and share collections, parameter validation,
and error-envelope wrapping around the external `reddsa` FROST implementation.
We embed that binding layer directly.  The FROST core itself (trusted-dealer
Shamir sharing, binding factors, Lagrange aggregation, rerandomized Schnorr
verification) lives in the external `reddsa` crate, so it is modelled from the
specification in discrete-log form: the prime-order group of order `q` is
represented by its scalar field `ZMod q` (a point is identified with its
discrete logarithm with respect to the generator `B`, so `B` itself is `1`),
and the two ciphersuite hashes are abstract function parameters.
-/

set_option maxRecDepth 200000
set_option maxHeartbeats 1000000

namespace FrostUI

/-- Error envelope, from `struct FrostError { code, message }` in both
frost-wasm and frost-zcash-wasm. -/
structure FrostError where
  code : String
  message : String
deriving DecidableEq

/-- Success/error result wrapper, from `enum FrostResult<T>` (untagged union of
the payload and a `FrostError`). -/
inductive FrostResult (α : Type) where
  | ok : α → FrostResult α
  | err : FrostError → FrostResult α
deriving DecidableEq

/-- The error code carried by a result, if any. -/
def resCode {α : Type} : FrostResult α → Option String
  | .ok _ => none
  | .err e => some e.code

/-- Whether a result is the success envelope. -/
def resIsOk {α : Type} : FrostResult α → Bool
  | .ok _ => true
  | .err _ => false

/-- Decidable equality for `Except`, used to evaluate concrete runs. -/
def exceptDecEq {ε α : Type} [DecidableEq ε] [DecidableEq α] :
    DecidableEq (Except ε α) := fun x y =>
  match x, y with
  | .error a, .error b =>
    if h : a = b then .isTrue (congrArg Except.error h)
    else .isFalse (fun hc => h (Except.error.inj hc))
  | .error _, .ok _ => .isFalse (fun hc => Except.noConfusion hc)
  | .ok _, .error _ => .isFalse (fun hc => Except.noConfusion hc)
  | .ok a, .ok b =>
    if h : a = b then .isTrue (congrArg Except.ok h)
    else .isFalse (fun hc => h (Except.ok.inj hc))

instance {ε α : Type} [DecidableEq ε] [DecidableEq α] : DecidableEq (Except ε α) :=
  exceptDecEq

/-- Convert an `Option` into a `Result`, the shape of
`hex::decode(..).map_err(|e| format!(..))?` in the Rust sources. -/
def ofOption {α : Type} : Option α → String → Except String α
  | some a, _ => .ok a
  | none, msg => .error msg

/-! ## Hex codec

The Rust sources use `hex::encode` (lowercase) and `hex::decode` for every
byte-string crossing the boundary.  Bytes are modelled as `ℕ` values `< 256`. -/

/-- The sixteen lowercase hex digits, in value order. -/
def hexDigits : List Char := "0123456789abcdef".data

/-- The hex digit of a nibble. -/
def hexDigit (n : ℕ) : Char := hexDigits.getD n '0'

/-- Lowercase hex encoding of a byte list, as a character list
(`hex::encode`): each byte becomes high nibble then low nibble. -/
def hexEncodeList : List ℕ → List Char
  | [] => []
  | b :: bs => hexDigit (b / 16) :: hexDigit (b % 16) :: hexEncodeList bs

/-- Lowercase hex encoding of a byte list, as a string (`hex::encode`). -/
def hexEncode (bs : List ℕ) : String := ⟨hexEncodeList bs⟩

/-- The value of one hex digit; `hex::decode` accepts both cases. -/
def hexVal (c : Char) : Option ℕ :=
  if '0' ≤ c ∧ c ≤ '9' then some (c.toNat - '0'.toNat)
  else if 'a' ≤ c ∧ c ≤ 'f' then some (c.toNat - 'a'.toNat + 10)
  else if 'A' ≤ c ∧ c ≤ 'F' then some (c.toNat - 'A'.toNat + 10)
  else none

/-- Hex decoding of a character list (`hex::decode`): fails on an odd length
or a non-hex character. -/
def hexDecodeList : List Char → Option (List ℕ)
  | [] => some []
  | [_] => none
  | c₁ :: c₂ :: cs => do
    let h ← hexVal c₁
    let l ← hexVal c₂
    let rest ← hexDecodeList cs
    pure ((16 * h + l) :: rest)

/-- Hex decoding of a string (`hex::decode`). -/
def hexDecode (s : String) : Option (List ℕ) := hexDecodeList s.data

/-! ## Little-endian fixed-width byte codec

All scalar and point encodings in the spec are canonical fixed-width
little-endian byte strings. -/

/-- `width`-byte little-endian encoding of a natural number. -/
def natToBytesLE : ℕ → ℕ → List ℕ
  | 0, _ => []
  | w + 1, v => v % 256 :: natToBytesLE w (v / 256)

/-- Value of a little-endian byte list. -/
def bytesToNatLE : List ℕ → ℕ
  | [] => 0
  | b :: bs => b + 256 * bytesToNatLE bs

/-! ## Sorted association-list model of `BTreeMap`

Both Rust crates collect commitments and signature shares into
`BTreeMap<Identifier, _>` maps by iterating the input list and calling
`insert`, which silently replaces the value at an existing key.  A `BTreeMap`
is modelled as an association list strictly sorted by key. -/

/-- `BTreeMap::insert`: put `(k, v)` in a key-sorted association list,
replacing the previous value at `k` if present. -/
def mapInsert {α : Type} (k : ℕ) (v : α) : List (ℕ × α) → List (ℕ × α)
  | [] => [(k, v)]
  | (k', v') :: rest =>
    if k < k' then (k, v) :: (k', v') :: rest
    else if k = k' then (k, v) :: rest
    else (k', v') :: mapInsert k v rest

/-- `BTreeMap::get`: first value stored at key `k`. -/
def mlookup {α : Type} (k : ℕ) : List (ℕ × α) → Option α
  | [] => none
  | (k', v') :: rest => if k = k' then some v' else mlookup k rest

/-- Build a map from a list of entries by repeated insertion, the shape of the
`for c in commitments_list { ...; map.insert(id, value); }` loops. -/
def buildMap {α : Type} (l : List (ℕ × α)) : List (ℕ × α) :=
  l.foldl (fun m kv => mapInsert kv.1 kv.2 m) []

/-- The map-building loops of `create_signing_package_internal`,
`aggregate_internal` and `generate_round2_internal`: for each entry the wire
identifier is converted with `Identifier::try_from` (which fails exactly on
`0`), the payload is parsed with `p`, and the result is inserted into the map,
overwriting any previous entry with the same identifier. -/
def buildMapGo {α β : Type} (p : α → Except String β) :
    List (ℕ × α) → List (ℕ × β) → Except String (List (ℕ × β))
  | [], acc => .ok acc
  | (k, v) :: rest, acc =>
    if k = 0 then .error s!"Invalid identifier: {k}"
    else
      match p v with
      | .error e => .error e
      | .ok b => buildMapGo p rest (mapInsert k b acc)

/-- Entry point of the map-building loop (empty initial map). -/
def buildMapM {α β : Type} (p : α → Except String β) (l : List (ℕ × α)) :
    Except String (List (ℕ × β)) :=
  buildMapGo p l []

/-- The parse result of the last entry in `l` whose key is `j` (scanning left
to right, later entries shadowing earlier ones). -/
def lastParsed {α β : Type} (p : α → Except String β) (j : ℕ)
    (l : List (ℕ × α)) : Option β :=
  l.foldl (fun acc kv => if kv.1 = j then (p kv.2).toOption else acc) none

/-- The value of the last entry in `l` with key `j`, if any. -/
def lastVal {α : Type} (j : ℕ) (l : List (ℕ × α)) : Option α :=
  l.foldl (fun acc kv => if kv.1 = j then some kv.2 else acc) none

/-- Keys of an association list, in entry order. -/
def keysOf {α : Type} (l : List (ℕ × α)) : List ℕ := l.map Prod.fst

/-- Key set of an association list. -/
def keyset {α : Type} (l : List (ℕ × α)) : Finset ℕ := (keysOf l).toFinset

/-- Strict key-sortedness invariant of the `BTreeMap` model. -/
def MapSorted {α : Type} (m : List (ℕ × α)) : Prop :=
  m.Pairwise (fun a b => a.1 < b.1)

/-! ## The FROST core in discrete-log form

Modelled from the spec: the FROST core (§4.2–4.6) is implemented by the
external `reddsa` crate, not by this repository's sources, so it is modelled
here.  Scalars live in `ZMod q` for a prime `q`; a point of the prime-order
group is identified with its discrete logarithm with respect to the generator
`B`, so `B = 1`, point addition is field addition and scalar multiplication is
field multiplication.  The ciphersuite hashes `H_ρ` (binding factor) and
`H_c` (challenge) are abstract function parameters. -/

section Core

variable (q : ℕ) [Fact (Nat.Prime q)]

/-- Horner evaluation of the dealer's polynomial
`f(x) = s + a_1 x + … + a_{t-1} x^{t-1}` given its coefficient list
(constant term first), from spec §4.2 step 1. -/
def polyEval (coeffs : List (ZMod q)) (x : ZMod q) : ZMod q :=
  coeffs.foldr (fun a acc => a + x * acc) 0

/-- The Lagrange coefficient at `0` for node `i` over the node set `S`:
`λ_i = Π_{j ∈ S, j ≠ i} j / (j − i)`, from spec §4.4.2 step 4. -/
def lagrangeCoeff (S : Finset (ZMod q)) (i : ZMod q) : ZMod q :=
  ∏ j ∈ S.erase i, j / (j - i)

/-- The dealer polynomial as a `Polynomial`, used only to connect `polyEval`
with Mathlib's Lagrange interpolation. -/
noncomputable def toPoly (coeffs : List (ZMod q)) : Polynomial (ZMod q) :=
  coeffs.foldr (fun a p => Polynomial.C a + Polynomial.X * p) 0

/-- Canonical 32-byte little-endian encoding of a scalar (spec §4.1). -/
def scalarBytes (x : ZMod q) : List ℕ := natToBytesLE 32 x.val

/-- Canonical scalar decoding: exactly 32 bytes whose little-endian value is
reduced (`< q`); anything else is a non-canonical encoding and fails, as
`Scalar::from_repr` does (spec §4.1). -/
def deserializeScalar (bs : List ℕ) : Except String (ZMod q) :=
  if bs.length = 32 then
    if bytesToNatLE bs < q then .ok ((bytesToNatLE bs : ℕ) : ZMod q)
    else .error "Non-canonical scalar encoding"
  else .error "Invalid scalar length"

/-- A participant's secret key package (`frost::keys::KeyPackage`), in
discrete-log form: the verifying share and group verifying key are points and
are represented by their logarithms. -/
structure KeyPackageM where
  identifier : ℕ
  signingShare : ZMod q
  verifyingShare : ZMod q
  verifyingKey : ZMod q
  minSigners : ℕ
deriving DecidableEq

/-- The public key package (`frost::keys::PublicKeyPackage`): verifying
shares per identifier plus the group verifying key, in discrete-log form. -/
structure PublicKeyPackageM where
  verifyingShares : ℕ → ZMod q
  verifyingKey : ZMod q

/-- Modelled from the spec: canonical fixed-width byte encoding of a
`KeyPackage` (the concrete `reddsa` codec is external): 2-byte little-endian
identifier, the three 32-byte scalars, 2-byte threshold. -/
def serializeKeyPackage (kp : KeyPackageM q) : List ℕ :=
  natToBytesLE 2 kp.identifier ++ scalarBytes q kp.signingShare ++
    scalarBytes q kp.verifyingShare ++ scalarBytes q kp.verifyingKey ++
    natToBytesLE 2 kp.minSigners

/-- Decoding of the modelled `KeyPackage` wire form (length-checked, each
scalar canonical). -/
def deserializeKeyPackage (bs : List ℕ) : Except String (KeyPackageM q) :=
  if bs.length = 100 then do
    let s ← deserializeScalar q ((bs.drop 2).take 32)
    let vs ← deserializeScalar q ((bs.drop 34).take 32)
    let vk ← deserializeScalar q ((bs.drop 66).take 32)
    .ok ⟨bytesToNatLE (bs.take 2), s, vs, vk, bytesToNatLE (bs.drop 98)⟩
  else .error "Invalid key package"

/-- Modelled from the spec: canonical wire form of a `PublicKeyPackage`:
2-byte entry count, then per entry a 2-byte identifier and the 32-byte
verifying share, then the 32-byte group key. -/
def pkpEntryBytes (en : ℕ × ZMod q) : List ℕ :=
  natToBytesLE 2 en.1 ++ scalarBytes q en.2

/-- Build the modelled `PublicKeyPackage` wire bytes. -/
def mkPkpBytes (entries : List (ℕ × ZMod q)) (vk : ZMod q) : List ℕ :=
  natToBytesLE 2 entries.length ++
    entries.foldr (fun en acc => pkpEntryBytes q en ++ acc) [] ++
    scalarBytes q vk

/-- Parse `k` verifying-share entries, returning them with the remaining
bytes. -/
def parsePkpEntries : ℕ → List ℕ → Except String (List (ℕ × ZMod q) × List ℕ)
  | 0, bs => .ok ([], bs)
  | k + 1, bs =>
    if bs.length < 34 then .error "Invalid public key package"
    else do
      let y ← deserializeScalar q ((bs.drop 2).take 32)
      let r ← parsePkpEntries k (bs.drop 34)
      .ok ((bytesToNatLE (bs.take 2), y) :: r.1, r.2)

/-- Decoding of the modelled `PublicKeyPackage` wire form. -/
def deserializePkp (bs : List ℕ) : Except String (PublicKeyPackageM q) :=
  if bs.length < 2 then .error "Invalid public key package"
  else do
    let r ← parsePkpEntries q (bytesToNatLE (bs.take 2)) (bs.drop 2)
    let vk ← deserializeScalar q (r.2.take 32)
    .ok ⟨fun j => (mlookup j r.1).getD 0, vk⟩

/-- The commitment pair `(D_j, E_j)` stored for identifier `j` in a
commitment map (absent identifiers default to the identity point). -/
def cmtOf (cmap : List (ℕ × ZMod q × ZMod q)) (j : ℕ) : ZMod q × ZMod q :=
  (mlookup j cmap).getD (0, 0)

/-- The bound commitment `B_j = D_j + ρ_j·E_j` of spec §4.4.2 step 1. -/
def bindingOf (cmap : List (ℕ × ZMod q × ZMod q)) (ρ : ℕ → ZMod q) (j : ℕ) :
    ZMod q :=
  (cmtOf q cmap j).1 + ρ j * (cmtOf q cmap j).2

/-- The group commitment `R = Σ_{j∈S} B_j` of spec §4.4.2 step 2. -/
def groupR (cmap : List (ℕ × ZMod q × ZMod q)) (ρ : ℕ → ZMod q) : ZMod q :=
  ∑ j ∈ keyset cmap, bindingOf q cmap ρ j

/-- The embedding of a set of wire identifiers into the scalar field
(spec §3, Identifier). -/
def idEmbed (S : Finset ℕ) : Finset (ZMod q) :=
  S.image (fun i : ℕ => (i : ZMod q))

/-- Modelled from the spec (§4.4.2): round-2 partial signing as implemented
by the external `reddsa::frost::redpallas::round2::sign`.  Validates the
commitment count against the threshold, the presence of the caller's own
commitment, and that it matches the caller's nonces; then emits
`z_i = d_i + ρ_i·e_i + λ_i·(s_i + α)·c`, each participant adding the
randomizer `α` to its effective share (the spec's chosen convention: since
`Σ λ_i = 1` the aggregate verifies under `Y' = Y + α·B`). -/
def signModel (cmap : List (ℕ × ZMod q × ZMod q)) (msg : List ℕ)
    (kp : KeyPackageM q) (d e α : ZMod q)
    (ρh : ℕ → List ℕ → List (ℕ × ZMod q × ZMod q) → ZMod q)
    (ch : ZMod q → ZMod q → List ℕ → ZMod q) : Except String (ZMod q) :=
  if cmap.length < kp.minSigners then .error "Incorrect number of commitments"
  else
    match mlookup kp.identifier cmap with
    | none => .error "Missing commitment"
    | some DE =>
      if DE = (d, e) then
        let ρ := fun j => ρh j msg cmap
        let R := groupR q cmap ρ
        let c := ch R (kp.verifyingKey + α) msg
        let lam := lagrangeCoeff q (idEmbed q (keyset cmap)) (kp.identifier : ZMod q)
        .ok (d + ρ kp.identifier * e + lam * (kp.signingShare + α) * c)
      else .error "Incorrect commitment"

/-- Schnorr verification equation in discrete-log form:
`z·B == R + c·Y_eff` (spec §4.6). -/
def verifyModel (z R c Y : ZMod q) : Bool := z == R + c * Y

/-- The per-share validity check of spec §4.5 step 3:
`z_j·B == B_j + λ_j·c·(Y_j + α·B)`. -/
def shareCheck (cmap : List (ℕ × ZMod q × ZMod q)) (smap : List (ℕ × ZMod q))
    (pkp : PublicKeyPackageM q) (α c : ZMod q) (ρ : ℕ → ZMod q) (j : ℕ) : Prop :=
  (mlookup j smap).getD 0 =
    bindingOf q cmap ρ j +
      lagrangeCoeff q (idEmbed q (keyset cmap)) (j : ZMod q) * c *
        (pkp.verifyingShares j + α)

instance (cmap : List (ℕ × ZMod q × ZMod q)) (smap : List (ℕ × ZMod q))
    (pkp : PublicKeyPackageM q) (α c : ZMod q) (ρ : ℕ → ZMod q) (j : ℕ) :
    Decidable (shareCheck q cmap smap pkp α c ρ j) := by
  unfold shareCheck; infer_instance

/-- Modelled from the spec (§4.5): aggregation as implemented by the external
`reddsa::frost::redpallas::aggregate`.  Checks that shares and commitments
cover the same identifiers, re-derives `ρ_j`, `R` and the challenge `c`
against the randomized key, verifies every share, sums the shares and then
verifies the final signature (defense in depth). -/
def aggregateModel (cmap : List (ℕ × ZMod q × ZMod q))
    (smap : List (ℕ × ZMod q)) (msg : List ℕ) (pkp : PublicKeyPackageM q)
    (α : ZMod q) (ρh : ℕ → List ℕ → List (ℕ × ZMod q × ZMod q) → ZMod q)
    (ch : ZMod q → ZMod q → List ℕ → ZMod q) :
    Except String (ZMod q × ZMod q) :=
  if keysOf smap = keysOf cmap then
    if ∀ j ∈ keyset cmap, shareCheck q cmap smap pkp α
        (ch (groupR q cmap (fun j => ρh j msg cmap)) (pkp.verifyingKey + α)
          msg)
        (fun j => ρh j msg cmap) j then
      if verifyModel q (∑ j ∈ keyset cmap, (mlookup j smap).getD 0)
          (groupR q cmap (fun j => ρh j msg cmap))
          (ch (groupR q cmap (fun j => ρh j msg cmap)) (pkp.verifyingKey + α)
            msg)
          (pkp.verifyingKey + α) then
        .ok (groupR q cmap (fun j => ρh j msg cmap),
          ∑ j ∈ keyset cmap, (mlookup j smap).getD 0)
      else .error "Invalid signature"
    else .error "Invalid signature share"
  else .error "Identifier set mismatch"

/-- The key package the trusted dealer hands participant `i`
(spec §4.2 steps 3–5): signing share `f(i)`, verifying share `f(i)·B`,
group key `f(0)·B`, threshold `t`. -/
def kpOf (t : ℕ) (coeffs : List (ZMod q)) (i : ℕ) : KeyPackageM q :=
  ⟨i, polyEval q coeffs (i : ZMod q), polyEval q coeffs (i : ZMod q),
   polyEval q coeffs 0, t⟩

/-- The dealer's public key package (spec §4.2 step 4). -/
def pkpOf (coeffs : List (ZMod q)) : PublicKeyPackageM q :=
  ⟨fun j => polyEval q coeffs (j : ZMod q), polyEval q coeffs 0⟩

/-- Modelled from the spec (§4.2–4.6): one complete ceremony over the
participant list `ids` — trusted-dealer shares from coefficient list
`coeffs`, a round-1 commitment pair `(d i, e i)` per participant, the
coordinator's commitment map, a round-2 signature share per participant under
randomizer `α`, aggregation, and final verification of the aggregate
signature against the randomized group key. -/
def runCeremony (t : ℕ) (coeffs : List (ZMod q)) (ids : List ℕ)
    (d e : ℕ → ZMod q) (α : ZMod q) (msg : List ℕ)
    (ρh : ℕ → List ℕ → List (ℕ × ZMod q × ZMod q) → ZMod q)
    (ch : ZMod q → ZMod q → List ℕ → ZMod q) : Except String Bool := do
  let cmap := buildMap (ids.map (fun i => (i, (d i, e i))))
  let zs ← ids.mapM (fun i =>
    (signModel q cmap msg (kpOf q t coeffs i) (d i) (e i) α ρh ch).map
      (fun z => (i, z)))
  let smap := buildMap zs
  let Rz ← aggregateModel q cmap smap msg (pkpOf q coeffs) α ρh ch
  let Yeff := (pkpOf q coeffs).verifyingKey + α
  pure (verifyModel q Rz.2 Rz.1 (ch Rz.1 Yeff msg) Yeff)

end Core

/-! ## frost-wasm binding layer (`src/lib/frost-wasm/src/lib.rs`)

The structured-record (serde JSON) layer is external; the JSON-string
arguments of the Rust functions are represented by their parsed records.
OS randomness (`OsRng`) is passed as an explicit stream argument. -/

/-- `struct Commitment { identifier, hiding, binding }` (hex payloads). -/
structure CommitmentW where
  identifier : ℕ
  «hiding» : String
  binding : String
deriving DecidableEq

/-- `struct SigningNonces { identifier, hiding, binding }` (hex payloads). -/
structure SigningNoncesW where
  identifier : ℕ
  «hiding» : String
  binding : String
deriving DecidableEq

/-- `struct SignatureShare { identifier, share }` (hex payload). -/
structure SignatureShareW where
  identifier : ℕ
  share : String
deriving DecidableEq

/-- `struct AggregateSignature { r, s, signature }` (hex strings). -/
structure AggregateSignatureW where
  r : String
  s : String
  signature : String
deriving DecidableEq

/-- The `{ "valid": bool }` success envelope of `verify_signature`. -/
structure VerifyResultW where
  valid : Bool
deriving DecidableEq

/-- `struct KeyShare` of frost-wasm (hex payloads). -/
structure KeyShareW where
  identifier : ℕ
  signing_share : String
  verifying_share : String
  key_package : String
deriving DecidableEq

/-- `struct KeyGenResult` of frost-wasm. -/
structure KeyGenResultW where
  group_public_key : String
  shares : List KeyShareW
  threshold : ℕ
  total : ℕ
  public_key_package : String
deriving DecidableEq

namespace FW

section FWDefs

variable (q : ℕ) [Fact (Nat.Prime q)]

/-- Modelled from the spec (§4.2): the trusted-dealer body of
`generate_key_shares_internal` after validation.  The dealer itself is
`reddsa`'s `generate_with_dealer`; its polynomial coefficients are drawn from
the RNG stream, identifiers are `1..=n`, and the wire result carries the hex
encodings produced by the Rust code. -/
def dealerKeygen (t n : ℕ) (rng : ℕ → ZMod q) : KeyGenResultW :=
  let coeffs := (List.range t).map rng
  let shares := (List.range n).map (fun k =>
    let i : ℕ := k + 1
    let s := polyEval q coeffs (i : ZMod q)
    KeyShareW.mk i (hexEncode (scalarBytes q s)) (hexEncode (scalarBytes q s))
      (hexEncode (serializeKeyPackage q (kpOf q t coeffs i))))
  let entries := (List.range n).map (fun k =>
    (k + 1, polyEval q coeffs ((k + 1 : ℕ) : ZMod q)))
  KeyGenResultW.mk (hexEncode (scalarBytes q (polyEval q coeffs 0))) shares t n
    (hexEncode (mkPkpBytes q entries (polyEval q coeffs 0)))

/-- `generate_key_shares_internal` (frost-wasm lines 147–213): rejects
`t = 0` and `t > n`, then `n > 255`, then runs the dealer. -/
def generate_key_shares_internal (t n : ℕ) (rng : ℕ → ZMod q) :
    Except String KeyGenResultW :=
  if t = 0 ∨ n < t then
    .error s!"Invalid threshold: {t} must be > 0 and <= {n}"
  else if 255 < n then .error "Total participants must be <= 255"
  else .ok (dealerKeygen q t n rng)

/-- `generate_key_shares` wrapper: wraps any internal failure in an error
envelope with code `KEYGEN_ERROR`. -/
def generate_key_shares (t n : ℕ) (rng : ℕ → ZMod q) :
    FrostResult KeyGenResultW :=
  match generate_key_shares_internal q t n rng with
  | .ok r => .ok r
  | .error e => .err ⟨"KEYGEN_ERROR", e⟩

/-- Per-entry commitment parsing in the reconstruction loops of
`generate_round2_internal` and `aggregate_internal`: hex-decode the hiding
and binding payloads and deserialize each as a group element. -/
def parseCommitmentW (c : CommitmentW) : Except String (ZMod q × ZMod q) := do
  let hb ← ofOption (hexDecode c.«hiding») "Invalid hiding commitment"
  let bb ← ofOption (hexDecode c.binding) "Invalid binding commitment"
  let h ← deserializeScalar q hb
  let b ← deserializeScalar q bb
  .ok (h, b)

/-- Signature-share payload parsing in `aggregate_internal`. -/
def parseShareHex (sh : String) : Except String (ZMod q) := do
  let sb ← ofOption (hexDecode sh) "Invalid signature share"
  deserializeScalar q sb

/-- `generate_round2_internal` (frost-wasm lines 330–425): parse the key
package, message and nonces, rebuild the commitment map, obtain the
randomizer — deserializing `randomizer_hex` when non-empty and otherwise
sampling 32 fresh bytes from the RNG stream — and sign. -/
def generate_round2_internal (kpHex : String) (nonces : SigningNoncesW)
    (commitments : List CommitmentW) (msgHex randomizerHex : String)
    (rng : ℕ → ℕ) (ρh : ℕ → List ℕ → List (ℕ × ZMod q × ZMod q) → ZMod q)
    (ch : ZMod q → ZMod q → List ℕ → ZMod q) : Except String SignatureShareW := do
  let kpBytes ← ofOption (hexDecode kpHex) "Invalid key package hex"
  let kp ← deserializeKeyPackage q kpBytes
  let msg ← ofOption (hexDecode msgHex) "Invalid message hex"
  let hb ← ofOption (hexDecode nonces.«hiding») "Invalid hiding nonce"
  let bb ← ofOption (hexDecode nonces.binding) "Invalid binding nonce"
  let d ← deserializeScalar q hb
  let e ← deserializeScalar q bb
  let cmap ← buildMapM (parseCommitmentW q)
    (commitments.map (fun c => (c.identifier, c)))
  let α ←
    if randomizerHex = "" then
      deserializeScalar q ((List.range 32).map rng)
    else do
      let rb ← ofOption (hexDecode randomizerHex) "Invalid randomizer hex"
      deserializeScalar q rb
  let z ← signModel q cmap msg kp d e α ρh ch
  .ok ⟨kp.identifier, hexEncode (scalarBytes q z)⟩

/-- `generate_round2_signature` wrapper: wraps any internal failure in an
error envelope with code `ROUND2_ERROR`. -/
def generate_round2_signature (kpHex : String) (nonces : SigningNoncesW)
    (commitments : List CommitmentW) (msgHex randomizerHex : String)
    (rng : ℕ → ℕ) (ρh : ℕ → List ℕ → List (ℕ × ZMod q × ZMod q) → ZMod q)
    (ch : ZMod q → ZMod q → List ℕ → ZMod q) : FrostResult SignatureShareW :=
  match generate_round2_internal q kpHex nonces commitments msgHex
      randomizerHex rng ρh ch with
  | .ok r => .ok r
  | .error e => .err ⟨"ROUND2_ERROR", e⟩

/-- The output record of `aggregate_internal` (frost-wasm lines 556–567):
the 64 signature bytes are split as `r = bytes[..32]`, `s = bytes[32..]`,
each hex-encoded, and `signature` is the hex of the whole. -/
def mkAggOut (R z : ZMod q) : AggregateSignatureW :=
  let sb := scalarBytes q R ++ scalarBytes q z
  ⟨hexEncode (sb.take 32), hexEncode (sb.drop 32), hexEncode sb⟩

/-- `aggregate_internal` (frost-wasm lines 474–568): parse the message,
public key package and randomizer, rebuild the commitment and share maps,
aggregate, and emit the `r`/`s`/`signature` hex record. -/
def aggregate_internal (shares : List SignatureShareW)
    (commitments : List CommitmentW) (msgHex pkpHex randomizerHex : String)
    (ρh : ℕ → List ℕ → List (ℕ × ZMod q × ZMod q) → ZMod q)
    (ch : ZMod q → ZMod q → List ℕ → ZMod q) :
    Except String AggregateSignatureW := do
  let msg ← ofOption (hexDecode msgHex) "Invalid message hex"
  let pkpBytes ← ofOption (hexDecode pkpHex) "Invalid public key package hex"
  let pkp ← deserializePkp q pkpBytes
  let rb ← ofOption (hexDecode randomizerHex) "Invalid randomizer hex"
  let α ← deserializeScalar q rb
  let cmap ← buildMapM (parseCommitmentW q)
    (commitments.map (fun c => (c.identifier, c)))
  let smap ← buildMapM (parseShareHex q)
    (shares.map (fun s => (s.identifier, s.share)))
  let Rz ← aggregateModel q cmap smap msg pkp α ρh ch
  .ok (mkAggOut q Rz.1 Rz.2)

/-- `aggregate_signature` wrapper: wraps any internal failure in an error
envelope with code `AGGREGATE_ERROR`. -/
def aggregate_signature (shares : List SignatureShareW)
    (commitments : List CommitmentW) (msgHex pkpHex randomizerHex : String)
    (ρh : ℕ → List ℕ → List (ℕ × ZMod q × ZMod q) → ZMod q)
    (ch : ZMod q → ZMod q → List ℕ → ZMod q) :
    FrostResult AggregateSignatureW :=
  match aggregate_internal q shares commitments msgHex pkpHex randomizerHex
      ρh ch with
  | .ok r => .ok r
  | .error e => .err ⟨"AGGREGATE_ERROR", e⟩

/-- `Signature::deserialize`: 64 bytes, both canonical halves. -/
def deserializeSignature (bs : List ℕ) : Except String (ZMod q × ZMod q) :=
  if bs.length = 64 then do
    let R ← deserializeScalar q (bs.take 32)
    let z ← deserializeScalar q (bs.drop 32)
    .ok (R, z)
  else .error "Invalid signature"

/-- `verify_internal` (frost-wasm lines 601–635): hex-decode the four
inputs, deserialize signature, group key and randomizer, then check the
Schnorr equation against the randomized verifying key, returning `Ok(bool)`.
-/
def verify_internal (sigHex msgHex gkHex randomizerHex : String)
    (ch : ZMod q → ZMod q → List ℕ → ZMod q) : Except String Bool := do
  let sigBytes ← ofOption (hexDecode sigHex) "Invalid signature hex"
  let msg ← ofOption (hexDecode msgHex) "Invalid message hex"
  let gkBytes ← ofOption (hexDecode gkHex) "Invalid group public key hex"
  let rb ← ofOption (hexDecode randomizerHex) "Invalid randomizer hex"
  let sig ← deserializeSignature q sigBytes
  let gk ← deserializeScalar q gkBytes
  let α ← deserializeScalar q rb
  let Yeff := gk + α
  .ok (verifyModel q sig.2 sig.1 (ch sig.1 Yeff msg) Yeff)

/-- `verify_signature` wrapper (frost-wasm lines 585–599): a successful
internal run is reported as `{ valid }`; any internal failure becomes an
error envelope with code `VERIFY_ERROR`. -/
def verify_signature (sigHex msgHex gkHex randomizerHex : String)
    (ch : ZMod q → ZMod q → List ℕ → ZMod q) : FrostResult VerifyResultW :=
  match verify_internal q sigHex msgHex gkHex randomizerHex ch with
  | .ok b => .ok ⟨b⟩
  | .error e => .err ⟨"VERIFY_ERROR", e⟩

/-- The decoded view of `verify_internal`'s inputs: a well-formed call
decodes to exactly these five values. -/
structure VerifyParsed where
  sigR : ZMod q
  sigZ : ZMod q
  msg : List ℕ
  gk : ZMod q
  rand : ZMod q
deriving DecidableEq

/-- The parsing prefix of `verify_internal` (frost-wasm lines 607–628): the
four hex decodes and the three deserializations, in source order, with the
source's error messages.  `verify_internal` is exactly this parse followed by
the pure Schnorr check. -/
def verifyParse (sigHex msgHex gkHex randomizerHex : String) :
    Except String (VerifyParsed q) := do
  let sigBytes ← ofOption (hexDecode sigHex) "Invalid signature hex"
  let msg ← ofOption (hexDecode msgHex) "Invalid message hex"
  let gkBytes ← ofOption (hexDecode gkHex) "Invalid group public key hex"
  let rb ← ofOption (hexDecode randomizerHex) "Invalid randomizer hex"
  let sig ← deserializeSignature q sigBytes
  let gk ← deserializeScalar q gkBytes
  let α ← deserializeScalar q rb
  .ok ⟨sig.1, sig.2, msg, gk, α⟩

end FWDefs

end FW

/-! ## frost-zcash-wasm binding layer (`src/lib/frost-zcash-wasm/src/lib.rs`)

This variant keeps every composite entity in serde JSON, so the parsers,
constructors and serializers of the external `reddsa` types appear as
function parameters; the binding layer's own work — hex decoding of the
message, identifier conversion and `BTreeMap` assembly, and the shape of the
result — is embedded directly. -/

namespace FZ

/-- `struct CommitmentInfo { identifier, commitment }`. -/
structure CommitmentInfo where
  identifier : ℕ
  commitment : String
deriving DecidableEq

/-- `struct SignatureShareInfo { identifier, share }`. -/
structure SignatureShareInfo where
  identifier : ℕ
  share : String
deriving DecidableEq

/-- `struct SigningPackageResult { signing_package, randomizer }`. -/
structure SigningPackageResult where
  signing_package : String
  randomizer : String
deriving DecidableEq

/-- `struct AggregateResult { signature, randomizer }`. -/
structure AggregateResult where
  signature : String
  randomizer : String
deriving DecidableEq

section FZDefs

variable (q : ℕ)

/-- `create_signing_package_internal` (frost-zcash-wasm lines 347–396):
parse the message hex and the public key package (serde, abstract), build
the commitment `BTreeMap` (identifier conversion, per-payload parse, insert),
form the signing package from the map and message, derive randomized
parameters from fresh randomness, and serialize both. -/
def create_signing_package_internal {Cm Rand : Type}
    (parsePkp : String → Except String (ZMod q))
    (parseCm : String → Except String Cm)
    (newRandomizedParams : ZMod q → List (ℕ × Cm) × List ℕ → (ℕ → ℕ) →
      Except String Rand)
    (serPkg : List (ℕ × Cm) × List ℕ → String)
    (serRand : Rand → String)
    (commitments : List CommitmentInfo) (messageHex pkpJson : String)
    (rng : ℕ → ℕ) : Except String SigningPackageResult := do
  let msg ← ofOption (hexDecode messageHex) "Invalid message hex"
  let vk ← parsePkp pkpJson
  let cmap ← buildMapM parseCm
    (commitments.map (fun c => (c.identifier, c.commitment)))
  let pkg := (cmap, msg)
  let rp ← newRandomizedParams vk pkg rng
  .ok ⟨serPkg pkg, serRand rp⟩

/-- `aggregate_internal` (frost-zcash-wasm lines 513–565): parse the signing
package, public key package and randomizer (serde, abstract), build the
share `BTreeMap`, aggregate (external), and emit the hex signature together
with the re-serialized randomizer. -/
def aggregate_internal {Sh Pkg Rand Sig : Type}
    (parsePkg : String → Except String Pkg)
    (parsePkp : String → Except String (ZMod q))
    (parseRand : String → Except String Rand)
    (parseShare : String → Except String Sh)
    (aggregateCore : Pkg → List (ℕ × Sh) → ZMod q → Rand → Except String Sig)
    (serSig : Sig → List ℕ)
    (serRand : Rand → String)
    (shares : List SignatureShareInfo) (pkgJson pkpJson randJson : String) :
    Except String AggregateResult := do
  let pkg ← parsePkg pkgJson
  let vk ← parsePkp pkpJson
  let rand ← parseRand randJson
  let smap ← buildMapM parseShare
    (shares.map (fun s => (s.identifier, s.share)))
  let sig ← aggregateCore pkg smap vk rand
  .ok ⟨hexEncode (serSig sig), serRand rand⟩

end FZDefs

end FZ

/-! ## xeddsa-wasm binding layer (`src/lib/xeddsa-wasm/src/lib.rs`)

The XEdDSA construction itself lives in the external `xeddsa` and
`x25519-dalek` crates; the key-derivation, signing and verifying cores appear
as function parameters (their Rust types fix the output sizes), while the
boundary length checks of the binding layer are embedded directly. -/

namespace Xeddsa

/-- `struct Keypair { private_key, public_key }`. -/
structure Keypair where
  private_key : List ℕ
  public_key : List ℕ
deriving DecidableEq

/-- `generate_keypair` (xeddsa-wasm lines 35–43): draw a 32-byte X25519
private key from the OS RNG and derive its public key (external
`PublicKey::from`). -/
def generate_keypair (rng : ℕ → ℕ) (derivePub : List ℕ → List ℕ) : Keypair :=
  let priv := (List.range 32).map rng
  ⟨priv, derivePub priv⟩

/-- `sign` (xeddsa-wasm lines 77–93): reject private keys that are not
exactly 32 bytes, otherwise run the external XEdDSA signing core on the
message with fresh randomness. -/
def sign (signCore : List ℕ → List ℕ → (ℕ → ℕ) → List ℕ)
    (privateKey msg : List ℕ) (rng : ℕ → ℕ) : Except String (List ℕ) :=
  if privateKey.length = 32 then .ok (signCore privateKey msg rng)
  else .error "Private key must be 32 bytes"

/-- `verify` (xeddsa-wasm lines 106–127): reject public keys that are not
32 bytes and signatures that are not 64 bytes, otherwise return the boolean
outcome of the external XEdDSA verification core. -/
def verify (verifyCore : List ℕ → List ℕ → List ℕ → Bool)
    (publicKey msg signature : List ℕ) : Except String Bool :=
  if publicKey.length = 32 then
    if signature.length = 64 then .ok (verifyCore publicKey msg signature)
    else .error "Signature must be 64 bytes"
  else .error "Public key must be 32 bytes"

end Xeddsa

/-! ## Concrete instances used by witnesses and counterexamples

A small prime field `ZMod 257` (the smallest prime exceeding the wire
identifier bound 255) with concrete stand-ins for the abstract ciphersuite
hashes, and a one-participant `t = 1` key set. -/

instance : Fact (Nat.Prime 257) := ⟨by norm_num⟩

/-- A concrete binding-factor hash stand-in over `ZMod 257`. -/
def rhoC : ℕ → List ℕ → List (ℕ × ZMod 257 × ZMod 257) → ZMod 257 :=
  fun i msg _ => (i : ZMod 257) + (msg.length : ZMod 257)

/-- A concrete challenge hash stand-in over `ZMod 257`. -/
def chC : ZMod 257 → ZMod 257 → List ℕ → ZMod 257 :=
  fun R Y msg => R + Y + (msg.length : ZMod 257) + 1

/-- Concrete key package: participant 1 of a `t = 1` key set with secret 3. -/
def kpC : KeyPackageM 257 := kpOf 257 1 [3] 1

/-- Hex wire form of `kpC`. -/
def kpHexC : String := hexEncode (serializeKeyPackage 257 kpC)

/-- Concrete round-1 nonces of participant 1 (hiding 4, binding 6). -/
def noncesC : SigningNoncesW :=
  ⟨1, hexEncode (scalarBytes 257 4), hexEncode (scalarBytes 257 6)⟩

/-- Concrete commitment list matching `noncesC`. -/
def commitsC : List CommitmentW :=
  [⟨1, hexEncode (scalarBytes 257 4), hexEncode (scalarBytes 257 6)⟩]

/-- The spec's concrete scenario message, hex of "Hello World". -/
def msgHexC : String := "48656c6c6f20576f726c64"

/-- Concrete randomizer hex (the scalar 7). -/
def randHexC : String := hexEncode (scalarBytes 257 7)

/-- RNG stream whose first 32 bytes little-endian encode the scalar 1. -/
def rngA : ℕ → ℕ := fun i => if i = 0 then 1 else 0

/-- RNG stream whose first 32 bytes little-endian encode the scalar 2. -/
def rngB : ℕ → ℕ := fun i => if i = 0 then 2 else 0

/-- The concrete signature share produced by participant 1 under `randHexC`. -/
def share1C : SignatureShareW :=
  ((FW.generate_round2_internal 257 kpHexC noncesC commitsC msgHexC randHexC
      rngA rhoC chC).toOption).getD ⟨0, ""⟩

/-- Hex wire form of the concrete public key package. -/
def pkpHexC : String := hexEncode (mkPkpBytes 257 [(1, 3)] 3)

/-- Hex of 64 zero bytes (a well-formed all-zero signature). -/
def sig0Hex : String := hexEncode (List.replicate 64 0)

/-- Hex of 32 zero bytes (a well-formed all-zero scalar). -/
def scalar0Hex : String := hexEncode (List.replicate 32 0)

/-- A concrete dealer RNG stream over `ZMod 257`. -/
def rngZC : ℕ → ZMod 257 := fun k => (k : ZMod 257) + 3

/-- The concrete successful aggregation result. -/
def c7resC : AggregateSignatureW :=
  (FW.aggregate_internal 257 [share1C] commitsC msgHexC pkpHexC randHexC rhoC
      chC).toOption.getD ⟨"", "", ""⟩

/-! # Theorems

First the library of lemmas about the `BTreeMap` model, the codecs and the
Lagrange algebra; then one theorem per claim, with witnesses and
counterexamples. -/

/-! ## `BTreeMap` model lemmas -/

theorem mlookup_mapInsert {α : Type} (k j : ℕ) (v : α) (m : List (ℕ × α)) :
    mlookup j (mapInsert k v m) = if j = k then some v else mlookup j m := by
  induction m with
  | nil => simp [mapInsert, mlookup]
  | cons kv rest ih =>
    obtain ⟨k', v'⟩ := kv
    by_cases h1 : k < k'
    · simp only [mapInsert, if_pos h1, mlookup]
    · by_cases h2 : k = k'
      · subst h2
        simp only [mapInsert, if_neg h1, if_pos rfl, mlookup]
        by_cases hj : j = k <;> simp [hj]
      · simp only [mapInsert, if_neg h1, if_neg h2, mlookup, ih]
        by_cases h3 : j = k'
        · subst h3
          have hjk : ¬j = k := fun hc => h2 hc.symm
          simp [hjk]
        · simp [h3]

theorem mem_mapInsert {α : Type} {k : ℕ} {v : α} {m : List (ℕ × α)}
    {b : ℕ × α} (hb : b ∈ mapInsert k v m) : b = (k, v) ∨ b ∈ m := by
  induction m with
  | nil =>
    simp only [mapInsert, List.mem_singleton] at hb
    exact Or.inl hb
  | cons kv rest ih =>
    obtain ⟨k', v'⟩ := kv
    simp only [mapInsert] at hb
    by_cases h1 : k < k'
    · rw [if_pos h1] at hb
      rcases List.mem_cons.mp hb with h | h
      · exact Or.inl h
      · exact Or.inr h
    · rw [if_neg h1] at hb
      by_cases h2 : k = k'
      · rw [if_pos h2] at hb
        rcases List.mem_cons.mp hb with h | h
        · exact Or.inl h
        · exact Or.inr (List.mem_cons_of_mem _ h)
      · rw [if_neg h2] at hb
        rcases List.mem_cons.mp hb with h | h
        · exact Or.inr (h ▸ List.mem_cons_self _ _)
        · rcases ih h with h' | h'
          · exact Or.inl h'
          · exact Or.inr (List.mem_cons_of_mem _ h')

theorem mapSorted_mapInsert {α : Type} {k : ℕ} {v : α} {m : List (ℕ × α)}
    (hm : MapSorted m) : MapSorted (mapInsert k v m) := by
  induction m with
  | nil => simp [mapInsert, MapSorted]
  | cons kv rest ih =>
    obtain ⟨k', v'⟩ := kv
    rw [MapSorted, List.pairwise_cons] at hm
    obtain ⟨hall, hrest⟩ := hm
    by_cases h1 : k < k'
    · rw [MapSorted]
      simp only [mapInsert, if_pos h1]
      refine List.Pairwise.cons ?_ (List.Pairwise.cons hall hrest)
      intro b hb
      rcases List.mem_cons.mp hb with h | h
      · rw [h]; exact h1
      · exact lt_trans h1 (hall b h)
    · by_cases h2 : k = k'
      · subst h2
        rw [MapSorted]
        simp only [mapInsert, if_neg h1, if_pos rfl]
        exact List.Pairwise.cons hall hrest
      · rw [MapSorted]
        simp only [mapInsert, if_neg h1, if_neg h2]
        refine List.Pairwise.cons ?_ (ih hrest)
        intro b hb
        rcases mem_mapInsert hb with h | h
        · rw [h]; omega
        · exact hall b h

theorem mlookup_eq_none_iff {α : Type} (j : ℕ) (m : List (ℕ × α)) :
    mlookup j m = none ↔ j ∉ keysOf m := by
  induction m with
  | nil => simp [mlookup, keysOf]
  | cons kv rest ih =>
    obtain ⟨k', v'⟩ := kv
    by_cases h : j = k'
    · subst h
      simp [mlookup, keysOf]
    · simp only [mlookup, if_neg h, keysOf, List.map_cons, List.mem_cons, ih]
      constructor
      · intro hnot hc
        rcases hc with hc | hc
        · exact h hc
        · exact hnot hc
      · intro hnot hc
        exact hnot (Or.inr hc)

theorem mapSorted_ext {α : Type} :
    ∀ {m₁ m₂ : List (ℕ × α)}, MapSorted m₁ → MapSorted m₂ →
      (∀ j, mlookup j m₁ = mlookup j m₂) → m₁ = m₂ := by
  intro m₁
  induction m₁ with
  | nil =>
    intro m₂ _ _ h
    cases m₂ with
    | nil => rfl
    | cons kv t =>
      exfalso
      obtain ⟨k₂, v₂⟩ := kv
      have hx := h k₂
      simp [mlookup] at hx
  | cons kv₁ t₁ ih =>
    intro m₂ h₁ h₂ h
    obtain ⟨k₁, v₁⟩ := kv₁
    cases m₂ with
    | nil =>
      exfalso
      have hx := h k₁
      simp [mlookup] at hx
    | cons kv₂ t₂ =>
      obtain ⟨k₂, v₂⟩ := kv₂
      rw [MapSorted, List.pairwise_cons] at h₁ h₂
      obtain ⟨hall₁, ht₁⟩ := h₁
      obtain ⟨hall₂, ht₂⟩ := h₂
      have hk : k₁ = k₂ := by
        by_contra hne
        rcases Nat.lt_or_ge k₁ k₂ with hlt | hge
        · have hx := h k₁
          have hnone : mlookup k₁ t₂ = none := by
            rw [mlookup_eq_none_iff]
            intro hmem
            obtain ⟨b, hb, hfst⟩ := List.mem_map.mp hmem
            have := hall₂ b hb
            omega
          simp [mlookup, hne, hnone] at hx
        · have hlt₂ : k₂ < k₁ := by omega
          have hx := h k₂
          have hnone : mlookup k₂ t₁ = none := by
            rw [mlookup_eq_none_iff]
            intro hmem
            obtain ⟨b, hb, hfst⟩ := List.mem_map.mp hmem
            have := hall₁ b hb
            omega
          have hne' : k₂ ≠ k₁ := fun hc => hne hc.symm
          simp [mlookup, hne', hnone] at hx
      subst hk
      have hv : v₁ = v₂ := by
        have hx := h k₁
        simpa [mlookup] using hx
      subst hv
      have htail : ∀ j, mlookup j t₁ = mlookup j t₂ := by
        intro j
        by_cases hj : j = k₁
        · subst hj
          have hn₁ : mlookup j t₁ = none := by
            rw [mlookup_eq_none_iff]
            intro hmem
            obtain ⟨b, hb, hfst⟩ := List.mem_map.mp hmem
            have := hall₁ b hb
            omega
          have hn₂ : mlookup j t₂ = none := by
            rw [mlookup_eq_none_iff]
            intro hmem
            obtain ⟨b, hb, hfst⟩ := List.mem_map.mp hmem
            have := hall₂ b hb
            omega
          rw [hn₁, hn₂]
        · have hx := h j
          simpa [mlookup, hj] using hx
      rw [ih ht₁ ht₂ htail]

theorem mlookup_foldl {α : Type} (j : ℕ) :
    ∀ (l : List (ℕ × α)) (acc : List (ℕ × α)),
      mlookup j (l.foldl (fun m kv => mapInsert kv.1 kv.2 m) acc) =
        l.foldl (fun a kv => if kv.1 = j then some kv.2 else a) (mlookup j acc) := by
  intro l
  induction l with
  | nil => intro acc; rfl
  | cons kv rest ih =>
    intro acc
    simp only [List.foldl_cons]
    rw [ih]
    congr 1
    rw [mlookup_mapInsert]
    by_cases hj : kv.1 = j
    · simp [hj]
    · have hj' : ¬j = kv.1 := fun hc => hj hc.symm
      simp [hj, hj']

theorem mlookup_buildMap {α : Type} (j : ℕ) (l : List (ℕ × α)) :
    mlookup j (buildMap l) = lastVal j l := by
  rw [buildMap, mlookup_foldl]
  rfl

theorem mapSorted_foldl {α : Type} :
    ∀ (l acc : List (ℕ × α)), MapSorted acc →
      MapSorted (l.foldl (fun m kv => mapInsert kv.1 kv.2 m) acc) := by
  intro l
  induction l with
  | nil => intro acc h; exact h
  | cons kv rest ih =>
    intro acc h
    simp only [List.foldl_cons]
    exact ih _ (mapSorted_mapInsert h)

theorem mapSorted_buildMap {α : Type} (l : List (ℕ × α)) :
    MapSorted (buildMap l) :=
  mapSorted_foldl l [] List.Pairwise.nil

theorem keysOf_mapInsert_congr {α β : Type} (k : ℕ) (v : α) (w : β) :
    ∀ (m₁ : List (ℕ × α)) (m₂ : List (ℕ × β)), keysOf m₁ = keysOf m₂ →
      keysOf (mapInsert k v m₁) = keysOf (mapInsert k w m₂) := by
  intro m₁
  induction m₁ with
  | nil =>
    intro m₂ h
    have hm : m₂ = [] := by
      cases m₂ with
      | nil => rfl
      | cons kv t => simp [keysOf] at h
    subst hm
    rfl
  | cons kv rest ih =>
    intro m₂ h
    cases m₂ with
    | nil => simp [keysOf] at h
    | cons kv₂ rest₂ =>
      simp only [keysOf, List.map_cons, List.cons.injEq] at h
      obtain ⟨hk, hrest⟩ := h
      simp only [mapInsert, ← hk]
      by_cases h1 : k < kv.1
      · simp only [if_pos h1, keysOf, List.map_cons, hrest]
      · by_cases h2 : k = kv.1
        · simp only [if_neg h1, if_pos h2, keysOf, List.map_cons, hrest]
        · simp only [if_neg h1, if_neg h2, keysOf, List.map_cons]
          have hi := ih rest₂ hrest
          simp only [keysOf] at hi
          rw [hi]

theorem keysOf_buildMap_congr {α β : Type} :
    ∀ (l₁ : List (ℕ × α)) (l₂ : List (ℕ × β)) (acc₁ : List (ℕ × α))
      (acc₂ : List (ℕ × β)), keysOf l₁ = keysOf l₂ → keysOf acc₁ = keysOf acc₂ →
      keysOf (l₁.foldl (fun m kv => mapInsert kv.1 kv.2 m) acc₁) =
        keysOf (l₂.foldl (fun m kv => mapInsert kv.1 kv.2 m) acc₂) := by
  intro l₁
  induction l₁ with
  | nil =>
    intro l₂ acc₁ acc₂ hl hacc
    have hm : l₂ = [] := by
      cases l₂ with
      | nil => rfl
      | cons kv t => simp [keysOf] at hl
    subst hm
    exact hacc
  | cons kv rest ih =>
    intro l₂ acc₁ acc₂ hl hacc
    cases l₂ with
    | nil => simp [keysOf] at hl
    | cons kv₂ rest₂ =>
      simp only [keysOf, List.map_cons, List.cons.injEq] at hl
      simp only [List.foldl_cons]
      refine ih rest₂ _ _ hl.2 ?_
      rw [hl.1]
      exact keysOf_mapInsert_congr kv₂.1 kv.2 kv₂.2 acc₁ acc₂ hacc

theorem foldl_if_keep {α β : Type} (f : ℕ × α → Option β) (j : ℕ) :
    ∀ (l : List (ℕ × α)) (o : Option β), j ∉ keysOf l →
      l.foldl (fun a kv => if kv.1 = j then f kv else a) o = o := by
  intro l
  induction l with
  | nil => intro o _; rfl
  | cons kv rest ih =>
    intro o h
    simp only [keysOf, List.map_cons, List.mem_cons, not_or] at h
    simp only [List.foldl_cons]
    rw [if_neg (fun hc => h.1 hc.symm)]
    exact ih o h.2

theorem foldl_if_last_unique {α β : Type} (f : ℕ × α → Option β) (j : ℕ) :
    ∀ (l : List (ℕ × α)), (keysOf l).Nodup → ∀ kv₀ ∈ l, kv₀.1 = j →
      ∀ (o : Option β),
        l.foldl (fun a kv => if kv.1 = j then f kv else a) o = f kv₀ := by
  intro l
  induction l with
  | nil =>
    intro _ kv₀ h
    exact absurd h (List.not_mem_nil _)
  | cons kv rest ih =>
    intro hnd kv₀ hmem hkey o
    simp only [keysOf, List.map_cons, List.nodup_cons] at hnd
    rcases List.mem_cons.mp hmem with h | h
    · subst h
      simp only [List.foldl_cons, if_pos hkey]
      exact foldl_if_keep f j rest (f kv₀) (hkey ▸ hnd.1)
    · have hjmem : j ∈ keysOf rest := List.mem_map.mpr ⟨kv₀, h, hkey⟩
      have hne : ¬kv.1 = j := fun hc => hnd.1 (hc ▸ hjmem)
      simp only [List.foldl_cons, if_neg hne]
      exact ih hnd.2 kv₀ h hkey _

theorem lastParsed_eq_of_mem {α β : Type} (p : α → Except String β)
    {l : List (ℕ × α)} (hnd : (keysOf l).Nodup) {kv₀ : ℕ × α} (hmem : kv₀ ∈ l)
    (j : ℕ) (hkey : kv₀.1 = j) : lastParsed p j l = (p kv₀.2).toOption :=
  foldl_if_last_unique (fun kv => (p kv.2).toOption) j l hnd kv₀ hmem hkey none

theorem lastParsed_eq_none {α β : Type} (p : α → Except String β) (j : ℕ)
    {l : List (ℕ × α)} (h : j ∉ keysOf l) : lastParsed p j l = none :=
  foldl_if_keep (fun kv => (p kv.2).toOption) j l none h

theorem lastVal_eq_of_mem {α : Type} {l : List (ℕ × α)}
    (hnd : (keysOf l).Nodup) {kv₀ : ℕ × α} (hmem : kv₀ ∈ l) (j : ℕ)
    (hkey : kv₀.1 = j) : lastVal j l = some kv₀.2 :=
  foldl_if_last_unique (fun kv => some kv.2) j l hnd kv₀ hmem hkey none

theorem lastVal_eq_none_iff {α : Type} (j : ℕ) :
    ∀ (l : List (ℕ × α)), lastVal j l = none ↔ j ∉ keysOf l := by
  have key : ∀ (l : List (ℕ × α)) (o : Option α),
      l.foldl (fun a kv => if kv.1 = j then some kv.2 else a) o = none ↔
        o = none ∧ j ∉ keysOf l := by
    intro l
    induction l with
    | nil =>
      intro o
      simp [keysOf]
    | cons kv rest ih =>
      intro o
      simp only [List.foldl_cons, ih, keysOf, List.map_cons, List.mem_cons,
        not_or]
      by_cases h : kv.1 = j
      · rw [if_pos h]
        constructor
        · rintro ⟨hsome, _⟩
          exact Option.noConfusion hsome
        · rintro ⟨_, hne, _⟩
          exact absurd h.symm hne
      · rw [if_neg h]
        constructor
        · rintro ⟨ho, hni⟩
          exact ⟨ho, fun hc => h hc.symm, hni⟩
        · rintro ⟨ho, _, hni⟩
          exact ⟨ho, hni⟩
  intro l
  rw [lastVal, key]
  simp

theorem keyset_buildMap {α : Type} (l : List (ℕ × α)) :
    keyset (buildMap l) = (keysOf l).toFinset := by
  ext j
  simp only [keyset, List.mem_toFinset]
  constructor
  · intro hj
    by_contra hj'
    have hn : lastVal j l = none := (lastVal_eq_none_iff j l).mpr hj'
    have hlk := mlookup_buildMap j l
    rw [hn] at hlk
    exact (mlookup_eq_none_iff j (buildMap l)).mp hlk hj
  · intro hj
    have hlk := mlookup_buildMap j l
    by_contra hj'
    rw [(mlookup_eq_none_iff j (buildMap l)).mpr hj'] at hlk
    exact ((lastVal_eq_none_iff j l).mp hlk.symm) hj

theorem keysOf_nodup_of_sorted {α : Type} {m : List (ℕ × α)}
    (h : MapSorted m) : (keysOf m).Nodup := by
  rw [MapSorted] at h
  exact List.Pairwise.map Prod.fst (fun a b hab => Nat.ne_of_lt hab) h

theorem length_buildMap_of_nodup {α : Type} {l : List (ℕ × α)}
    (hnd : (keysOf l).Nodup) : (buildMap l).length = l.length := by
  have h1 : (keysOf (buildMap l)).Nodup :=
    keysOf_nodup_of_sorted (mapSorted_buildMap l)
  have hset := keyset_buildMap l
  rw [keyset] at hset
  have hcard : (keysOf (buildMap l)).length = (keysOf l).length := by
    rw [← List.toFinset_card_of_nodup h1, ← List.toFinset_card_of_nodup hnd,
      hset]
  simpa [keysOf, List.length_map] using hcard

theorem buildMapGo_char {α β : Type} (p : α → Except String β) :
    ∀ (l : List (ℕ × α)) (acc : List (ℕ × β)),
      (∀ kv ∈ l, kv.1 ≠ 0 ∧ (p kv.2).isOk = true) →
      ∃ m, buildMapGo p l acc = .ok m ∧ (MapSorted acc → MapSorted m) ∧
        ∀ j, mlookup j m =
          l.foldl (fun a kv => if kv.1 = j then (p kv.2).toOption else a)
            (mlookup j acc) := by
  intro l
  induction l with
  | nil =>
    intro acc _
    exact ⟨acc, rfl, fun h => h, fun _ => rfl⟩
  | cons kv rest ih =>
    intro acc hv
    obtain ⟨k, v⟩ := kv
    have hk : k ≠ 0 := (hv (k, v) (List.mem_cons_self _ _)).1
    have hp : ((p v).isOk : Bool) = true := (hv (k, v) (List.mem_cons_self _ _)).2
    obtain ⟨b, hb⟩ : ∃ b, p v = .ok b := by
      cases hpv : p v with
      | ok b => exact ⟨b, rfl⟩
      | error e =>
        rw [hpv] at hp
        simp [Except.isOk, Except.toBool] at hp
    obtain ⟨m, hm, hsorted, hlook⟩ :=
      ih (mapInsert k b acc) (fun kv hkv => hv kv (List.mem_cons_of_mem _ hkv))
    refine ⟨m, ?_, fun hacc => hsorted (mapSorted_mapInsert hacc), ?_⟩
    · simp only [buildMapGo, if_neg hk, hb]
      exact hm
    · intro j
      rw [hlook j, List.foldl_cons]
      congr 1
      rw [mlookup_mapInsert]
      by_cases hj : k = j
      · subst hj
        simp [hb, Except.toOption]
      · have hj' : ¬j = k := fun hc => hj hc.symm
        simp [hj, hj']

theorem buildMapM_char {α β : Type} (p : α → Except String β)
    (l : List (ℕ × α)) (hv : ∀ kv ∈ l, kv.1 ≠ 0 ∧ (p kv.2).isOk = true) :
    ∃ m, buildMapM p l = .ok m ∧ MapSorted m ∧
      ∀ j, mlookup j m = lastParsed p j l := by
  obtain ⟨m, hm, hs, hl⟩ := buildMapGo_char p l [] hv
  exact ⟨m, hm, hs List.Pairwise.nil, fun j => hl j⟩

theorem lastParsed_perm {α β : Type} (p : α → Except String β) (j : ℕ)
    {l l' : List (ℕ × α)} (hperm : l.Perm l') (hnd : (keysOf l).Nodup) :
    lastParsed p j l = lastParsed p j l' := by
  have hkeys : (keysOf l).Perm (keysOf l') := hperm.map Prod.fst
  have hnd' : (keysOf l').Nodup := hkeys.nodup_iff.mp hnd
  by_cases hj : j ∈ keysOf l
  · obtain ⟨kv₀, hkv₀, hkey⟩ := List.mem_map.mp hj
    rw [lastParsed_eq_of_mem p hnd hkv₀ j hkey,
      lastParsed_eq_of_mem p hnd' (hperm.mem_iff.mp hkv₀) j hkey]
  · have hj' : j ∉ keysOf l' := fun hc => hj (hkeys.mem_iff.mpr hc)
    rw [lastParsed_eq_none p j hj, lastParsed_eq_none p j hj']

theorem buildMapM_perm {α β : Type} (p : α → Except String β)
    {l l' : List (ℕ × α)} (hperm : l.Perm l') (hnd : (keysOf l).Nodup)
    (hv : ∀ kv ∈ l, kv.1 ≠ 0 ∧ (p kv.2).isOk = true) :
    buildMapM p l = buildMapM p l' := by
  have hv' : ∀ kv ∈ l', kv.1 ≠ 0 ∧ (p kv.2).isOk = true :=
    fun kv hkv => hv kv (hperm.mem_iff.mpr hkv)
  obtain ⟨m, hm, hs, hl⟩ := buildMapM_char p l hv
  obtain ⟨m', hm', hs', hl'⟩ := buildMapM_char p l' hv'
  rw [hm, hm']
  have : m = m' := by
    apply mapSorted_ext hs hs'
    intro j
    rw [hl j, hl' j, lastParsed_perm p j hperm hnd]
  rw [this]

/-! ## Hex and byte codec lemmas -/

theorem hexEncodeList_append (a b : List ℕ) :
    hexEncodeList (a ++ b) = hexEncodeList a ++ hexEncodeList b := by
  induction a with
  | nil => rfl
  | cons x xs ih => simp [hexEncodeList, ih]

theorem length_hexEncodeList (bs : List ℕ) :
    (hexEncodeList bs).length = 2 * bs.length := by
  induction bs with
  | nil => rfl
  | cons b rest ih =>
    simp only [hexEncodeList, List.length_cons, ih]
    ring

theorem hexDigit_mem (n : ℕ) : hexDigit n ∈ hexDigits := by
  rcases Nat.lt_or_ge n 16 with h | h
  · interval_cases n <;> decide
  · have h16 : hexDigits.length = 16 := by decide
    rw [hexDigit, List.getD_eq_default _ _ (by omega)]
    decide

theorem mem_hexEncodeList {c : Char} {bs : List ℕ}
    (h : c ∈ hexEncodeList bs) : c ∈ hexDigits := by
  induction bs with
  | nil => simp [hexEncodeList] at h
  | cons b rest ih =>
    simp only [hexEncodeList, List.mem_cons] at h
    rcases h with h | h | h
    · exact h ▸ hexDigit_mem _
    · exact h ▸ hexDigit_mem _
    · exact ih h

theorem length_natToBytesLE (w : ℕ) :
    ∀ (v : ℕ), (natToBytesLE w v).length = w := by
  induction w with
  | zero => intro v; rfl
  | succ w ih => intro v; simp [natToBytesLE, ih]

theorem hexEncode_append (a b : List ℕ) :
    hexEncode (a ++ b) = hexEncode a ++ hexEncode b := by
  have : hexEncode a ++ hexEncode b =
      String.mk (hexEncodeList a ++ hexEncodeList b) := rfl
  rw [this, hexEncode, hexEncodeList_append]

theorem length_hexEncode (bs : List ℕ) :
    (hexEncode bs).length = 2 * bs.length := by
  have : (hexEncode bs).length = (hexEncodeList bs).length := rfl
  rw [this, length_hexEncodeList]

theorem length_scalarBytes (q : ℕ) [Fact (Nat.Prime q)] (x : ZMod q) :
    (scalarBytes q x).length = 32 :=
  length_natToBytesLE 32 _

theorem mem_hexEncode {c : Char} {bs : List ℕ}
    (h : c ∈ (hexEncode bs).data) : c ∈ hexDigits :=
  mem_hexEncodeList h

/-! ## Lagrange interpolation at zero -/

theorem eval_toPoly (q : ℕ) [Fact (Nat.Prime q)] (coeffs : List (ZMod q))
    (x : ZMod q) : (toPoly q coeffs).eval x = polyEval q coeffs x := by
  induction coeffs with
  | nil => simp [toPoly, polyEval]
  | cons a as ih =>
    simp only [toPoly, polyEval, List.foldr_cons] at ih ⊢
    simp [ih]

theorem degree_toPoly_lt (q : ℕ) [Fact (Nat.Prime q)] (coeffs : List (ZMod q)) :
    (toPoly q coeffs).degree < (coeffs.length : WithBot ℕ) := by
  induction coeffs with
  | nil =>
    simp only [toPoly, List.foldr_nil, Polynomial.degree_zero,
      List.length_nil]
    exact WithBot.bot_lt_coe 0
  | cons a as ih =>
    have hstep : toPoly q (a :: as) =
        Polynomial.C a + Polynomial.X * toPoly q as := rfl
    rw [hstep]
    refine lt_of_le_of_lt (Polynomial.degree_add_le _ _) (max_lt ?_ ?_)
    · refine lt_of_le_of_lt Polynomial.degree_C_le ?_
      rw [List.length_cons]
      exact_mod_cast Nat.succ_pos as.length
    · rw [Polynomial.degree_mul, Polynomial.degree_X, List.length_cons]
      have h1 : (1 : WithBot ℕ) + (toPoly q as).degree <
          1 + (as.length : WithBot ℕ) :=
        WithBot.add_lt_add_left (by simp) ih
      refine lt_of_lt_of_le h1 (le_of_eq ?_)
      rw [show ((as.length + 1 : ℕ) : WithBot ℕ) =
        ((as.length : ℕ) : WithBot ℕ) + 1 by exact_mod_cast rfl]
      rw [add_comm]

theorem eval_basis_zero (q : ℕ) [Fact (Nat.Prime q)] (S : Finset (ZMod q))
    (i : ZMod q) : (Lagrange.basis S id i).eval 0 = lagrangeCoeff q S i := by
  rw [Lagrange.basis, Polynomial.eval_prod, lagrangeCoeff]
  apply Finset.prod_congr rfl
  intro j _
  rw [Lagrange.basisDivisor]
  simp only [Polynomial.eval_mul, Polynomial.eval_C, Polynomial.eval_sub,
    Polynomial.eval_X, id]
  rw [div_eq_mul_inv, show (j : ZMod q) - i = -(i - j) by ring, inv_neg]
  ring

theorem lagrange_eval_zero (q : ℕ) [Fact (Nat.Prime q)] (S : Finset (ZMod q))
    (f : Polynomial (ZMod q)) (hdeg : f.degree < (S.card : WithBot ℕ)) :
    ∑ i ∈ S, lagrangeCoeff q S i * f.eval i = f.eval 0 := by
  have hinj : Set.InjOn id (S : Set (ZMod q)) := Set.injOn_id _
  have h := Lagrange.eq_interpolate hinj hdeg
  conv_rhs => rw [h]
  rw [Lagrange.interpolate_apply, Polynomial.eval_finset_sum]
  apply Finset.sum_congr rfl
  intro i _
  rw [Polynomial.eval_mul, Polynomial.eval_C, eval_basis_zero]
  simp only [id]
  ring

theorem lagrange_polyEval_zero (q : ℕ) [Fact (Nat.Prime q)]
    (S : Finset (ZMod q)) (coeffs : List (ZMod q))
    (hlen : coeffs.length ≤ S.card) :
    ∑ i ∈ S, lagrangeCoeff q S i * polyEval q coeffs i =
      polyEval q coeffs 0 := by
  have hdeg : (toPoly q coeffs).degree < (S.card : WithBot ℕ) :=
    lt_of_lt_of_le (degree_toPoly_lt q coeffs) (by exact_mod_cast hlen)
  have h := lagrange_eval_zero q S (toPoly q coeffs) hdeg
  simp only [eval_toPoly] at h
  exact h

theorem lagrange_sum_one (q : ℕ) [Fact (Nat.Prime q)] (S : Finset (ZMod q))
    (hS : S.Nonempty) : ∑ i ∈ S, lagrangeCoeff q S i = 1 := by
  have hlen : ([(1 : ZMod q)]).length ≤ S.card := by
    simpa using Finset.card_pos.mpr hS
  have h := lagrange_polyEval_zero q S [(1 : ZMod q)] hlen
  simpa [polyEval] using h

/-! ## Ceremony completeness -/

theorem mapM_ok {α β : Type} (f : α → Except String β) (g : α → β) :
    ∀ (l : List α), (∀ a ∈ l, f a = .ok (g a)) → l.mapM f = .ok (l.map g) := by
  intro l
  induction l with
  | nil => intro _; rfl
  | cons a as ih =>
    intro h
    rw [List.mapM_cons, h a (List.mem_cons_self _ _),
      ih (fun x hx => h x (List.mem_cons_of_mem _ hx))]
    rfl

theorem runCeremony_ok (q : ℕ) [Fact (Nat.Prime q)] (t : ℕ)
    (coeffs : List (ZMod q)) (ids : List ℕ) (d e : ℕ → ZMod q) (α : ZMod q)
    (msg : List ℕ) (ρh : ℕ → List ℕ → List (ℕ × ZMod q × ZMod q) → ZMod q)
    (ch : ZMod q → ZMod q → List ℕ → ZMod q) (hnd : ids.Nodup)
    (hlt : ∀ i ∈ ids, i < q) (hcard : t ≤ ids.length)
    (hlen : coeffs.length = t) (ht : 1 ≤ t) :
    runCeremony q t coeffs ids d e α msg ρh ch = .ok true := by
  classical
  -- the commitment list and map
  set l : List (ℕ × ZMod q × ZMod q) := ids.map (fun i => (i, (d i, e i)))
    with hl
  have hkeys_l : keysOf l = ids := by
    rw [hl, keysOf, List.map_map,
      show (Prod.fst ∘ fun i : ℕ => (i, d i, e i)) = id from rfl, List.map_id]
  have hnd_l : (keysOf l).Nodup := by rw [hkeys_l]; exact hnd
  set cmap := buildMap l with hcmap
  have hlook_c : ∀ i ∈ ids, mlookup i cmap = some (d i, e i) := by
    intro i hi
    rw [hcmap, mlookup_buildMap]
    exact lastVal_eq_of_mem hnd_l
      (show (i, (d i, e i)) ∈ l from List.mem_map.mpr ⟨i, hi, rfl⟩) i rfl
  have hkeyset : keyset cmap = ids.toFinset := by
    rw [hcmap, keyset_buildMap, hkeys_l]
  have hlen_c : cmap.length = ids.length := by
    rw [hcmap, length_buildMap_of_nodup hnd_l, hl, List.length_map]
  -- abbreviations for the derived quantities
  set ρfun : ℕ → ZMod q := fun j => ρh j msg cmap with hρfun
  set R := groupR q cmap ρfun with hR
  set Sf := idEmbed q (keyset cmap) with hSf
  set Y := polyEval q coeffs 0 with hY
  set c := ch R (Y + α) msg with hc
  set zf : ℕ → ZMod q := fun i =>
    d i + ρfun i * e i +
      lagrangeCoeff q Sf (i : ZMod q) * (polyEval q coeffs (i : ZMod q) + α) * c
    with hzf
  -- every round-2 call succeeds
  have hsign : ∀ i ∈ ids,
      signModel q cmap msg (kpOf q t coeffs i) (d i) (e i) α ρh ch =
        .ok (zf i) := by
    intro i hi
    have hnotlt : ¬cmap.length < t := by
      rw [hlen_c]; omega
    simp only [signModel, kpOf, hlook_c i hi, if_neg hnotlt, if_pos rfl,
      if_true]
  -- the round-2 map-phase succeeds
  have hmapM : ids.mapM (fun i =>
      (signModel q cmap msg (kpOf q t coeffs i) (d i) (e i) α ρh ch).map
        (fun z => (i, z))) = .ok (ids.map (fun i => (i, zf i))) := by
    apply mapM_ok
    intro i hi
    rw [hsign i hi]
    rfl
  -- the share map
  set zs : List (ℕ × ZMod q) := ids.map (fun i => (i, zf i)) with hzs
  have hkeys_zs : keysOf zs = ids := by
    rw [hzs, keysOf, List.map_map,
      show (Prod.fst ∘ fun i : ℕ => (i, zf i)) = id from rfl, List.map_id]
  have hnd_zs : (keysOf zs).Nodup := by rw [hkeys_zs]; exact hnd
  set smap := buildMap zs with hsmap
  have hlook_s : ∀ i ∈ ids, mlookup i smap = some (zf i) := by
    intro i hi
    rw [hsmap, mlookup_buildMap]
    exact lastVal_eq_of_mem hnd_zs
      (show (i, zf i) ∈ zs from List.mem_map.mpr ⟨i, hi, rfl⟩) i rfl
  have hkeys_sc : keysOf smap = keysOf cmap := by
    rw [hsmap, hcmap]
    exact keysOf_buildMap_congr zs l [] []
      (by rw [hkeys_zs, hkeys_l]) rfl
  -- embedding of the identifiers is injective
  have hinj : ∀ x ∈ ids.toFinset, ∀ y ∈ ids.toFinset,
      (x : ZMod q) = (y : ZMod q) → x = y := by
    intro x hx y hy hxy
    have hxq : x < q := hlt x (List.mem_toFinset.mp hx)
    have hyq : y < q := hlt y (List.mem_toFinset.mp hy)
    have := congrArg ZMod.val hxy
    rwa [ZMod.val_cast_of_lt hxq, ZMod.val_cast_of_lt hyq] at this
  have hSf_eq : Sf = ids.toFinset.image (fun i : ℕ => (i : ZMod q)) := by
    rw [hSf, hkeyset, idEmbed]
  have hSf_card : Sf.card = ids.length := by
    rw [hSf_eq, Finset.card_image_of_injOn hinj,
      List.toFinset_card_of_nodup hnd]
  have hSf_nonempty : Sf.Nonempty := by
    rw [← Finset.card_pos, hSf_card]
    omega
  -- the Lagrange algebra
  have hlag₁ : ∑ x ∈ Sf, lagrangeCoeff q Sf x * polyEval q coeffs x = Y := by
    rw [hY]
    exact lagrange_polyEval_zero q Sf coeffs (by rw [hSf_card]; omega)
  have hlag₂ : ∑ x ∈ Sf, lagrangeCoeff q Sf x = 1 :=
    lagrange_sum_one q Sf hSf_nonempty
  -- the aggregate share sum satisfies the Schnorr equation
  have hsum : ∑ j ∈ keyset cmap, (mlookup j smap).getD 0 = R + c * (Y + α) := by
    have hz : ∑ j ∈ keyset cmap, (mlookup j smap).getD 0 =
        ∑ j ∈ ids.toFinset, zf j := by
      rw [hkeyset]
      apply Finset.sum_congr rfl
      intro j hj
      rw [hlook_s j (List.mem_toFinset.mp hj)]
      rfl
    have hRsum : R = ∑ j ∈ ids.toFinset, (d j + ρfun j * e j) := by
      rw [hR, groupR, hkeyset]
      apply Finset.sum_congr rfl
      intro j hj
      rw [bindingOf, cmtOf, hlook_c j (List.mem_toFinset.mp hj)]
      rfl
    have hlsum : ∑ j ∈ ids.toFinset,
        lagrangeCoeff q Sf (j : ZMod q) *
          (polyEval q coeffs (j : ZMod q) + α) * c = c * (Y + α) := by
      have himg : ∑ j ∈ ids.toFinset,
          lagrangeCoeff q Sf (j : ZMod q) *
            (polyEval q coeffs (j : ZMod q) + α) * c =
          ∑ x ∈ Sf, lagrangeCoeff q Sf x * (polyEval q coeffs x + α) * c := by
        rw [hSf_eq, Finset.sum_image hinj]
      rw [himg]
      have hexp : ∀ x ∈ Sf,
          lagrangeCoeff q Sf x * (polyEval q coeffs x + α) * c =
            lagrangeCoeff q Sf x * polyEval q coeffs x * c +
              lagrangeCoeff q Sf x * (α * c) := by
        intro x _
        ring
      rw [Finset.sum_congr rfl hexp, Finset.sum_add_distrib, ← Finset.sum_mul,
        ← Finset.sum_mul, hlag₁, hlag₂]
      ring
    rw [hz]
    have hzf_exp : ∀ j ∈ ids.toFinset, zf j =
        (d j + ρfun j * e j) +
          lagrangeCoeff q Sf (j : ZMod q) *
            (polyEval q coeffs (j : ZMod q) + α) * c := by
      intro j _
      rw [hzf]
    rw [Finset.sum_congr rfl hzf_exp, Finset.sum_add_distrib, hlsum, ← hRsum]
  -- the aggregation succeeds and the final verification accepts
  have hcheck : ∀ j ∈ keyset cmap,
      shareCheck q cmap smap (pkpOf q coeffs) α c ρfun j := by
    intro j hj
    have hj' : j ∈ ids := List.mem_toFinset.mp (hkeyset ▸ hj)
    rw [shareCheck, hlook_s j hj']
    simp only [Option.getD_some]
    rw [bindingOf, cmtOf, hlook_c j hj']
    show zf j = _
    rw [hzf]
    simp only [Option.getD_some]
    have hvs : (pkpOf q coeffs).verifyingShares j =
        polyEval q coeffs (j : ZMod q) := rfl
    rw [hvs]
    ring
  have hverify : verifyModel q (∑ j ∈ keyset cmap, (mlookup j smap).getD 0) R
      c (Y + α) = true := by
    rw [verifyModel, hsum]
    exact beq_self_eq_true _
  have haggr : aggregateModel q cmap smap msg (pkpOf q coeffs) α ρh ch =
      .ok (R, ∑ j ∈ keyset cmap, (mlookup j smap).getD 0) := by
    have hpkvk : (pkpOf q coeffs).verifyingKey = Y := rfl
    simp only [aggregateModel]
    rw [if_pos hkeys_sc, ← hρfun, ← hR, hpkvk, ← hc, if_pos hcheck,
      if_pos hverify]
  -- assemble the run
  have hfinal : runCeremony q t coeffs ids d e α msg ρh ch =
      (aggregateModel q cmap smap msg (pkpOf q coeffs) α ρh ch).bind
        (fun Rz => pure (verifyModel q Rz.2 Rz.1
          (ch Rz.1 ((pkpOf q coeffs).verifyingKey + α) msg)
          ((pkpOf q coeffs).verifyingKey + α))) := by
    rw [runCeremony, ← hl, ← hcmap, hmapM]
    rfl
  rw [hfinal, haggr]
  show Except.ok (verifyModel q (∑ j ∈ keyset cmap, (mlookup j smap).getD 0) R
    (ch R (Y + α) msg) (Y + α)) = Except.ok true
  rw [← hc, hverify]

/-! ## Claim theorems -/

/-- C1: For every (t, n) with 1 ≤ t ≤ n ≤ 255 and every duplicate-free
subset S of the participants {1, …, n} with |S| ≥ t, running the full
ceremony — trusted-dealer key generation, a round-1 commitment per member of
S, the coordinator's signing package, a round-2 signature share per member of
S under the ceremony randomizer, aggregation — produces a signature that
verification reports valid against the randomized group key; for every prime
group order q > 255, dealer polynomial with t coefficients, choice of nonces,
randomizer, message, and pair of ciphersuite hashes. -/
theorem frost_c1_ceremony_completeness (q : ℕ) [Fact (Nat.Prime q)]
    (t n : ℕ) (coeffs : List (ZMod q)) (ids : List ℕ) (d e : ℕ → ZMod q)
    (α : ZMod q) (msg : List ℕ)
    (ρh : ℕ → List ℕ → List (ℕ × ZMod q × ZMod q) → ZMod q)
    (ch : ZMod q → ZMod q → List ℕ → ZMod q)
    (h1 : 1 ≤ t) (h2 : t ≤ n) (h3 : n ≤ 255) (hq : 255 < q)
    (hnd : ids.Nodup) (hsub : ∀ i ∈ ids, 1 ≤ i ∧ i ≤ n)
    (hcard : t ≤ ids.length) (hlen : coeffs.length = t) :
    runCeremony q t coeffs ids d e α msg ρh ch = .ok true := by
  apply runCeremony_ok q t coeffs ids d e α msg ρh ch hnd ?_ hcard hlen h1
  intro i hi
  have := hsub i hi
  omega

/-- Witness for C1: the spec's concrete scenario S1 — t = 2, n = 3, signers
{1, 2}, message hex 48656c6c6f20576f726c64 ("Hello World") — verifies as
valid, at q = 257 with concrete nonces and hash stand-ins. -/
theorem frost_c1_witness :
    runCeremony 257 2 [3, 5] [1, 2] (fun i => (i : ZMod 257) + 10)
      (fun i => (i : ZMod 257) + 20) 7 ((hexDecode msgHexC).getD []) rhoC
      chC = .ok true :=
  frost_c1_ceremony_completeness 257 2 3 [3, 5] [1, 2]
    (fun i => (i : ZMod 257) + 10) (fun i => (i : ZMod 257) + 20) 7
    ((hexDecode msgHexC).getD []) rhoC chC (by decide) (by decide)
    (by decide) (by decide) (by decide) (by decide) (by decide) (by decide)

/-- Counterexample to C5: `generate_key_shares(0, 3)` returns an error
envelope whose code is `KEYGEN_ERROR`, not `INVALID_THRESHOLD`. -/
theorem frost_c5_counterexample :
    FW.generate_key_shares 257 0 3 rngZC =
      .err ⟨"KEYGEN_ERROR", "Invalid threshold: 0 must be > 0 and <= 3"⟩ ∧
    "KEYGEN_ERROR" ≠ "INVALID_THRESHOLD" := by
  constructor
  · decide
  · decide

/-- C5 (amended): calling `generate_key_shares(0, 3)` returns an error
envelope whose code is `KEYGEN_ERROR` and whose message reports the invalid
threshold (the binding layer has no `INVALID_THRESHOLD` code). -/
theorem frost_c5_invalid_threshold_code (q : ℕ) [Fact (Nat.Prime q)]
    (rng : ℕ → ZMod q) :
    FW.generate_key_shares q 0 3 rng =
      .err ⟨"KEYGEN_ERROR", "Invalid threshold: 0 must be > 0 and <= 3"⟩ := by
  have h : FW.generate_key_shares_internal q 0 3 rng =
      .error "Invalid threshold: 0 must be > 0 and <= 3" := rfl
  simp only [FW.generate_key_shares, h]

/-- Witness for C5 at the concrete field. -/
theorem frost_c5_witness :
    FW.generate_key_shares 257 0 3 rngZC =
      .err ⟨"KEYGEN_ERROR", "Invalid threshold: 0 must be > 0 and <= 3"⟩ :=
  frost_c5_invalid_threshold_code 257 rngZC

/-- C6: `generate_key_shares_internal` rejects its parameters exactly when
`1 ≤ t ≤ n ≤ 255` fails — with the invalid-threshold message for `t = 0` or
`t > n`, and the too-many-participants message for `n > 255` — and otherwise
hands over to the trusted dealer, so any remaining failure comes from the
dealer stage and not from validation. -/
theorem frost_c6_keygen_validation (q : ℕ) [Fact (Nat.Prime q)] (t n : ℕ)
    (rng : ℕ → ZMod q) :
    ((1 ≤ t ∧ t ≤ n ∧ n ≤ 255) ∧
      FW.generate_key_shares_internal q t n rng =
        .ok (FW.dealerKeygen q t n rng)) ∨
    (¬(1 ≤ t ∧ t ≤ n ∧ n ≤ 255) ∧
      (FW.generate_key_shares_internal q t n rng =
          .error s!"Invalid threshold: {t} must be > 0 and <= {n}" ∨
        FW.generate_key_shares_internal q t n rng =
          .error "Total participants must be <= 255")) := by
  by_cases h1 : t = 0 ∨ n < t
  · right
    refine ⟨by omega, Or.inl ?_⟩
    simp only [FW.generate_key_shares_internal]
    rw [if_pos h1]
  · by_cases h2 : 255 < n
    · right
      refine ⟨by omega, Or.inr ?_⟩
      simp only [FW.generate_key_shares_internal]
      rw [if_neg h1, if_pos h2]
    · left
      refine ⟨by omega, ?_⟩
      simp only [FW.generate_key_shares_internal]
      rw [if_neg h1, if_neg h2]

/-- Witness for C6 at t = 2, n = 3 over the concrete field. -/
theorem frost_c6_witness :
    ((1 ≤ 2 ∧ 2 ≤ 3 ∧ 3 ≤ 255) ∧
      FW.generate_key_shares_internal 257 2 3 rngZC =
        .ok (FW.dealerKeygen 257 2 3 rngZC)) ∨
    (¬(1 ≤ 2 ∧ 2 ≤ 3 ∧ 3 ≤ 255) ∧
      (FW.generate_key_shares_internal 257 2 3 rngZC =
          .error "Invalid threshold: 2 must be > 0 and <= 3" ∨
        FW.generate_key_shares_internal 257 2 3 rngZC =
          .error "Total participants must be <= 255")) :=
  frost_c6_keygen_validation 257 2 3 rngZC

/-- C8: the XEdDSA binding enforces its fixed sizes at the boundary:
`generate_keypair` returns a 32-byte private key and a 32-byte public key;
`sign` succeeds with the external core's 64-byte signature exactly on 32-byte
private keys and errors otherwise; `verify` errors on public keys that are
not 32 bytes or signatures that are not 64 bytes, and otherwise returns the
core's boolean. -/
theorem frost_c8_xeddsa_boundary (derivePub : List ℕ → List ℕ)
    (signCore : List ℕ → List ℕ → (ℕ → ℕ) → List ℕ)
    (verifyCore : List ℕ → List ℕ → List ℕ → Bool)
    (hderive : ∀ k, (derivePub k).length = 32)
    (hsig : ∀ k m r, (signCore k m r).length = 64)
    (rng : ℕ → ℕ) (priv pub msg sig : List ℕ) :
    (Xeddsa.generate_keypair rng derivePub).private_key.length = 32 ∧
    (Xeddsa.generate_keypair rng derivePub).public_key.length = 32 ∧
    (priv.length = 32 →
      Xeddsa.sign signCore priv msg rng = .ok (signCore priv msg rng) ∧
        (signCore priv msg rng).length = 64) ∧
    (priv.length ≠ 32 →
      Xeddsa.sign signCore priv msg rng =
        .error "Private key must be 32 bytes") ∧
    (pub.length = 32 → sig.length = 64 →
      Xeddsa.verify verifyCore pub msg sig = .ok (verifyCore pub msg sig)) ∧
    (pub.length ≠ 32 →
      Xeddsa.verify verifyCore pub msg sig =
        .error "Public key must be 32 bytes") ∧
    (pub.length = 32 → sig.length ≠ 64 →
      Xeddsa.verify verifyCore pub msg sig =
        .error "Signature must be 64 bytes") := by
  refine ⟨?_, ?_, ?_, ?_, ?_, ?_, ?_⟩
  · simp [Xeddsa.generate_keypair]
  · simp [Xeddsa.generate_keypair, hderive]
  · intro h
    exact ⟨by simp only [Xeddsa.sign]; rw [if_pos h], hsig priv msg rng⟩
  · intro h
    simp only [Xeddsa.sign]
    rw [if_neg h]
  · intro h1 h2
    simp only [Xeddsa.verify]
    rw [if_pos h1, if_pos h2]
  · intro h
    simp only [Xeddsa.verify]
    rw [if_neg h]
  · intro h1 h2
    simp only [Xeddsa.verify]
    rw [if_pos h1, if_neg h2]

/-- Witness for C8: concrete cores and keys of the correct sizes. -/
theorem frost_c8_witness :
    (Xeddsa.generate_keypair (fun _ => 0)
        (fun _ => List.replicate 32 0)).private_key.length = 32 ∧
    (Xeddsa.generate_keypair (fun _ => 0)
        (fun _ => List.replicate 32 0)).public_key.length = 32 ∧
    ((List.replicate 32 1 : List ℕ).length = 32 →
      Xeddsa.sign (fun _ _ _ => List.replicate 64 0) (List.replicate 32 1) []
          (fun _ => 0) =
        .ok (List.replicate 64 0) ∧
        (List.replicate 64 0 : List ℕ).length = 64) ∧
    ((List.replicate 32 1 : List ℕ).length ≠ 32 →
      Xeddsa.sign (fun _ _ _ => List.replicate 64 0) (List.replicate 32 1) []
          (fun _ => 0) =
        .error "Private key must be 32 bytes") ∧
    ((List.replicate 32 2 : List ℕ).length = 32 →
      (List.replicate 64 3 : List ℕ).length = 64 →
      Xeddsa.verify (fun _ _ _ => true) (List.replicate 32 2) []
          (List.replicate 64 3) =
        .ok true) ∧
    ((List.replicate 32 2 : List ℕ).length ≠ 32 →
      Xeddsa.verify (fun _ _ _ => true) (List.replicate 32 2) []
          (List.replicate 64 3) =
        .error "Public key must be 32 bytes") ∧
    ((List.replicate 32 2 : List ℕ).length = 32 →
      (List.replicate 64 3 : List ℕ).length ≠ 64 →
      Xeddsa.verify (fun _ _ _ => true) (List.replicate 32 2) []
          (List.replicate 64 3) =
        .error "Signature must be 64 bytes") :=
  frost_c8_xeddsa_boundary (fun _ => List.replicate 32 0)
    (fun _ _ _ => List.replicate 64 0) (fun _ _ _ => true)
    (fun _ => by simp) (fun _ _ _ => by simp) (fun _ => 0)
    (List.replicate 32 1) (List.replicate 32 2) [] (List.replicate 64 3)

/-- Counterexample to C3: round-2 is a pure, stateless function of its
arguments; invoking it a second time with the very same nonce pair returns
the same successful signature share again (no error, no
`NONCE_ALREADY_USED`). -/
theorem frost_c3_counterexample :
    FW.generate_round2_signature 257 kpHexC noncesC commitsC msgHexC randHexC
        rngA rhoC chC =
      FW.generate_round2_signature 257 kpHexC noncesC commitsC msgHexC
        randHexC rngA rhoC chC ∧
    resCode (FW.generate_round2_signature 257 kpHexC noncesC commitsC msgHexC
      randHexC rngA rhoC chC) = none := by
  refine ⟨rfl, ?_⟩
  decide

/-- C3 (amended): `generate_round2_signature` is stateless and never detects
nonce reuse: every call either succeeds or returns an error envelope whose
code is `ROUND2_ERROR`; the code `NONCE_ALREADY_USED` is never produced, so a
second call with the same nonce pair simply returns the same share again. -/
theorem frost_c3_round2_stateless (q : ℕ) [Fact (Nat.Prime q)]
    (kpHex : String) (nonces : SigningNoncesW)
    (commitments : List CommitmentW) (msgHex randomizerHex : String)
    (rng : ℕ → ℕ) (ρh : ℕ → List ℕ → List (ℕ × ZMod q × ZMod q) → ZMod q)
    (chh : ZMod q → ZMod q → List ℕ → ZMod q) :
    resCode (FW.generate_round2_signature q kpHex nonces commitments msgHex
        randomizerHex rng ρh chh) = none ∨
    resCode (FW.generate_round2_signature q kpHex nonces commitments msgHex
        randomizerHex rng ρh chh) = some "ROUND2_ERROR" := by
  simp only [FW.generate_round2_signature]
  cases FW.generate_round2_internal q kpHex nonces commitments msgHex
      randomizerHex rng ρh chh with
  | ok r => left; rfl
  | error e => right; rfl

/-- Witness for C3 over the concrete field on a malformed key package. -/
theorem frost_c3_witness :
    resCode (FW.generate_round2_signature 257 "zz" noncesC commitsC msgHexC
        randHexC rngA rhoC chC) = none ∨
    resCode (FW.generate_round2_signature 257 "zz" noncesC commitsC msgHexC
        randHexC rngA rhoC chC) = some "ROUND2_ERROR" :=
  frost_c3_round2_stateless 257 "zz" noncesC commitsC msgHexC randHexC rngA
    rhoC chC

/-- C9: in the frost-wasm variant, `generate_round2_signature` is a
deterministic function of its five string arguments whenever
`randomizer_hex` is non-empty — the RNG stream is never consulted, so any two
RNG streams give identical results — while with an empty `randomizer_hex` a
fresh randomizer is drawn from the RNG inside the call and is not part of the
returned share record, so calls under different RNG states return different
shares (exhibited concretely). -/
theorem frost_c9_round2_randomizer (q : ℕ) [Fact (Nat.Prime q)]
    (kpHex : String) (nonces : SigningNoncesW)
    (commitments : List CommitmentW) (msgHex randomizerHex : String)
    (ρh : ℕ → List ℕ → List (ℕ × ZMod q × ZMod q) → ZMod q)
    (chh : ZMod q → ZMod q → List ℕ → ZMod q)
    (hne : randomizerHex ≠ "") :
    (∀ rng₁ rng₂ : ℕ → ℕ,
      FW.generate_round2_signature q kpHex nonces commitments msgHex
          randomizerHex rng₁ ρh chh =
        FW.generate_round2_signature q kpHex nonces commitments msgHex
          randomizerHex rng₂ ρh chh) ∧
    FW.generate_round2_internal 257 kpHexC noncesC commitsC msgHexC "" rngA
        rhoC chC ≠
      FW.generate_round2_internal 257 kpHexC noncesC commitsC msgHexC "" rngB
        rhoC chC := by
  constructor
  · intro rng₁ rng₂
    have hint : FW.generate_round2_internal q kpHex nonces commitments msgHex
        randomizerHex rng₁ ρh chh =
        FW.generate_round2_internal q kpHex nonces commitments msgHex
          randomizerHex rng₂ ρh chh := by
      simp only [FW.generate_round2_internal, if_neg hne]
    simp only [FW.generate_round2_signature, hint]
  · decide

/-- Witness for C9: with the non-empty concrete randomizer hex the two RNG
streams give identical results, while with the empty randomizer hex they give
different shares. -/
theorem frost_c9_witness :
    FW.generate_round2_signature 257 kpHexC noncesC commitsC msgHexC randHexC
        rngA rhoC chC =
      FW.generate_round2_signature 257 kpHexC noncesC commitsC msgHexC
        randHexC rngB rhoC chC ∧
    FW.generate_round2_internal 257 kpHexC noncesC commitsC msgHexC "" rngA
        rhoC chC ≠
      FW.generate_round2_internal 257 kpHexC noncesC commitsC msgHexC "" rngB
        rhoC chC :=
  ⟨(frost_c9_round2_randomizer 257 kpHexC noncesC commitsC msgHexC randHexC
      rhoC chC (by decide)).1 rngA rngB,
    (frost_c9_round2_randomizer 257 kpHexC noncesC commitsC msgHexC randHexC
      rhoC chC (by decide)).2⟩

theorem except_bind_ok {ε α β : Type} {x : Except ε α} {f : α → Except ε β}
    {r : β} (h : x >>= f = .ok r) : ∃ a, x = .ok a ∧ f a = .ok r := by
  cases x with
  | ok a => exact ⟨a, rfl, h⟩
  | error e =>
    exfalso
    simp only [Bind.bind, Except.bind] at h
    exact Except.noConfusion h

theorem mkAggOut_format (q : ℕ) [Fact (Nat.Prime q)] (R z : ZMod q) :
    (FW.mkAggOut q R z).signature = (FW.mkAggOut q R z).r ++ (FW.mkAggOut q R z).s ∧
    (FW.mkAggOut q R z).r.length = 64 ∧ (FW.mkAggOut q R z).s.length = 64 ∧
    (FW.mkAggOut q R z).signature.length = 128 ∧
    ∀ c ∈ (FW.mkAggOut q R z).signature.data, c ∈ hexDigits := by
  have hlen : (scalarBytes q R ++ scalarBytes q z).length = 64 := by
    rw [List.length_append, length_scalarBytes, length_scalarBytes]
  refine ⟨?_, ?_, ?_, ?_, ?_⟩
  · show hexEncode (scalarBytes q R ++ scalarBytes q z) =
      hexEncode ((scalarBytes q R ++ scalarBytes q z).take 32) ++
        hexEncode ((scalarBytes q R ++ scalarBytes q z).drop 32)
    rw [← hexEncode_append, List.take_append_drop]
  · show (hexEncode ((scalarBytes q R ++ scalarBytes q z).take 32)).length = 64
    rw [length_hexEncode, List.length_take, hlen]
    norm_num
  · show (hexEncode ((scalarBytes q R ++ scalarBytes q z).drop 32)).length = 64
    rw [length_hexEncode, List.length_drop, hlen]
  · show (hexEncode (scalarBytes q R ++ scalarBytes q z)).length = 128
    rw [length_hexEncode, hlen]
  · intro c hc
    exact mem_hexEncode hc

/-- C7: every successful `aggregate_internal` result is a 64-byte signature
encoded as R || z: the `r` field is the lowercase hex of the first 32 bytes,
the `s` field the hex of the last 32 bytes, the `signature` field is exactly
`r ++ s` (128 characters), and every character is a lowercase hex digit. -/
theorem frost_c7_signature_format (q : ℕ) [Fact (Nat.Prime q)]
    (shares : List SignatureShareW) (commitments : List CommitmentW)
    (msgHex pkpHex randomizerHex : String)
    (ρh : ℕ → List ℕ → List (ℕ × ZMod q × ZMod q) → ZMod q)
    (chh : ZMod q → ZMod q → List ℕ → ZMod q) (res : AggregateSignatureW)
    (h : FW.aggregate_internal q shares commitments msgHex pkpHex
      randomizerHex ρh chh = .ok res) :
    res.signature = res.r ++ res.s ∧ res.r.length = 64 ∧
      res.s.length = 64 ∧ res.signature.length = 128 ∧
      ∀ c ∈ res.signature.data, c ∈ hexDigits := by
  simp only [FW.aggregate_internal] at h
  obtain ⟨v₁, _, h⟩ := except_bind_ok h
  obtain ⟨v₂, _, h⟩ := except_bind_ok h
  obtain ⟨v₃, _, h⟩ := except_bind_ok h
  obtain ⟨v₄, _, h⟩ := except_bind_ok h
  obtain ⟨v₅, _, h⟩ := except_bind_ok h
  obtain ⟨v₆, _, h⟩ := except_bind_ok h
  obtain ⟨v₇, _, h⟩ := except_bind_ok h
  obtain ⟨Rz, _, h⟩ := except_bind_ok h
  have hres : res = FW.mkAggOut q Rz.1 Rz.2 := (Except.ok.inj h).symm
  rw [hres]
  exact mkAggOut_format q Rz.1 Rz.2

/-- Witness for C7: the concrete one-participant aggregation succeeds and its
output satisfies all the format properties. -/
theorem frost_c7_witness :
    c7resC.signature = c7resC.r ++ c7resC.s ∧ c7resC.r.length = 64 ∧
      c7resC.s.length = 64 ∧ c7resC.signature.length = 128 ∧
      ∀ c ∈ c7resC.signature.data, c ∈ hexDigits :=
  frost_c7_signature_format 257 [share1C] commitsC msgHexC pkpHexC randHexC
    rhoC chC c7resC (by decide)

theorem foldl_if_absorb {α β : Type} (f : ℕ × α → Option β) (j : ℕ) :
    ∀ (l : List (ℕ × α)), j ∈ keysOf l → ∀ (o₁ o₂ : Option β),
      l.foldl (fun a kv => if kv.1 = j then f kv else a) o₁ =
        l.foldl (fun a kv => if kv.1 = j then f kv else a) o₂ := by
  intro l
  induction l with
  | nil =>
    intro h
    exact absurd h (List.not_mem_nil _)
  | cons kv rest ih =>
    intro h o₁ o₂
    simp only [keysOf, List.map_cons, List.mem_cons] at h
    simp only [List.foldl_cons]
    by_cases hk : kv.1 = j
    · rw [if_pos hk, if_pos hk]
    · rw [if_neg hk, if_neg hk]
      apply ih
      rcases h with h | h
      · exact absurd h.symm hk
      · exact h

theorem lastParsed_erase_dup {α β : Type} (p : α → Except String β)
    (k j : ℕ) (a : α) (l₁ l₂ : List (ℕ × α)) (hj : j ∈ keysOf l₂) :
    lastParsed p k (l₁ ++ (j, a) :: l₂) = lastParsed p k (l₁ ++ l₂) := by
  rw [lastParsed, lastParsed, List.foldl_append, List.foldl_append,
    List.foldl_cons]
  by_cases hk : k = j
  · subst hk
    exact foldl_if_absorb (fun kv => (p kv.2).toOption) k l₂ hj _ _
  · rw [if_neg (fun hc => hk hc.symm)]

theorem lastParsed_last {α β : Type} (p : α → Except String β) (j : ℕ)
    (u w : List (ℕ × α)) (b : α) (hw : j ∉ keysOf w) :
    lastParsed p j (u ++ (j, b) :: w) = (p b).toOption := by
  simp only [lastParsed, List.foldl_append, List.foldl_cons, if_true]
  exact foldl_if_keep (fun kv => (p kv.2).toOption) j w _ hw

/-- C10: duplicate identifiers at the public interface are silently
collapsed rather than rejected: with two entries carrying the same nonzero
identifier `j` (payloads `a` earlier and `b` later), the map-building loop
returns no error, the later entry overwrites the earlier one in the internal
map, and `create_signing_package_internal` produces exactly the output it
would produce had the earlier duplicate never been present. -/
theorem frost_c10_duplicate_collapse (q : ℕ) {Cm Rand : Type}
    (parsePkp : String → Except String (ZMod q))
    (parseCm : String → Except String Cm)
    (newRP : ZMod q → List (ℕ × Cm) × List ℕ → (ℕ → ℕ) → Except String Rand)
    (serPkg : List (ℕ × Cm) × List ℕ → String) (serRand : Rand → String)
    (messageHex pkpJson : String) (rng : ℕ → ℕ)
    (l₁ l₂ l₃ : List FZ.CommitmentInfo) (j : ℕ) (a b : String)
    (hval : ∀ ci ∈ l₁ ++ FZ.CommitmentInfo.mk j a ::
        (l₂ ++ FZ.CommitmentInfo.mk j b :: l₃),
      ci.identifier ≠ 0 ∧ (parseCm ci.commitment).isOk = true)
    (hj3 : j ∉ l₃.map FZ.CommitmentInfo.identifier) :
    FZ.create_signing_package_internal q parsePkp parseCm newRP serPkg
        serRand
        (l₁ ++ FZ.CommitmentInfo.mk j a ::
          (l₂ ++ FZ.CommitmentInfo.mk j b :: l₃))
        messageHex pkpJson rng =
      FZ.create_signing_package_internal q parsePkp parseCm newRP serPkg
        serRand (l₁ ++ (l₂ ++ FZ.CommitmentInfo.mk j b :: l₃)) messageHex
        pkpJson rng ∧
    ∃ m, buildMapM parseCm
        ((l₁ ++ FZ.CommitmentInfo.mk j a ::
          (l₂ ++ FZ.CommitmentInfo.mk j b :: l₃)).map
            (fun c => (c.identifier, c.commitment))) = .ok m ∧
      mlookup j m = (parseCm b).toOption := by
  classical
  set f : FZ.CommitmentInfo → ℕ × String :=
    fun c => (c.identifier, c.commitment) with hf
  set A : List (ℕ × String) :=
    (l₁ ++ FZ.CommitmentInfo.mk j a ::
      (l₂ ++ FZ.CommitmentInfo.mk j b :: l₃)).map f with hA
  set B : List (ℕ × String) :=
    (l₁ ++ (l₂ ++ FZ.CommitmentInfo.mk j b :: l₃)).map f with hB
  have hAshape : A = l₁.map f ++ (j, a) ::
      (l₂.map f ++ (j, b) :: l₃.map f) := by
    rw [hA]
    simp [List.map_append, hf]
  have hBshape : B = l₁.map f ++ (l₂.map f ++ (j, b) :: l₃.map f) := by
    rw [hB]
    simp [List.map_append, hf]
  have hvA : ∀ kv ∈ A, kv.1 ≠ 0 ∧ (parseCm kv.2).isOk = true := by
    intro kv hkv
    rw [hA] at hkv
    obtain ⟨ci, hci, hfk⟩ := List.mem_map.mp hkv
    have := hval ci hci
    rw [← hfk]
    exact this
  have hvB : ∀ kv ∈ B, kv.1 ≠ 0 ∧ (parseCm kv.2).isOk = true := by
    intro kv hkv
    rw [hB] at hkv
    obtain ⟨ci, hci, hfk⟩ := List.mem_map.mp hkv
    have hci' : ci ∈ l₁ ++ FZ.CommitmentInfo.mk j a ::
        (l₂ ++ FZ.CommitmentInfo.mk j b :: l₃) := by
      rw [List.mem_append] at hci ⊢
      rcases hci with h | h
      · exact Or.inl h
      · exact Or.inr (List.mem_cons_of_mem _ h)
    have := hval ci hci'
    rw [← hfk]
    exact this
  have hjmem : j ∈ keysOf (l₂.map f ++ (j, b) :: l₃.map f) := by
    rw [keysOf, List.map_append]
    apply List.mem_append_right
    exact List.mem_cons_self _ _
  have hlast : ∀ k, lastParsed parseCm k A = lastParsed parseCm k B := by
    intro k
    rw [hAshape, hBshape]
    exact lastParsed_erase_dup parseCm k j a (l₁.map f)
      (l₂.map f ++ (j, b) :: l₃.map f) hjmem
  obtain ⟨mA, hmA, hsA, hlA⟩ := buildMapM_char parseCm A hvA
  obtain ⟨mB, hmB, hsB, hlB⟩ := buildMapM_char parseCm B hvB
  have hmaps : buildMapM parseCm A = buildMapM parseCm B := by
    rw [hmA, hmB]
    have : mA = mB := by
      apply mapSorted_ext hsA hsB
      intro k
      rw [hlA k, hlB k, hlast k]
    rw [this]
  constructor
  · simp only [FZ.create_signing_package_internal]
    rw [← hA, ← hB, hmaps]
  · refine ⟨mA, hmA, ?_⟩
    have hkeys3 : j ∉ keysOf (l₃.map f) := by
      rw [keysOf, List.map_map]
      intro hc
      apply hj3
      obtain ⟨ci, hci, hfk⟩ := List.mem_map.mp hc
      exact List.mem_map.mpr ⟨ci, hci, hfk⟩
    have hassoc : l₁.map f ++ (j, a) :: (l₂.map f ++ (j, b) :: l₃.map f) =
        (l₁.map f ++ (j, a) :: l₂.map f) ++ ((j, b) :: l₃.map f) := by
      rw [← List.cons_append, ← List.append_assoc]
    rw [hlA j, hAshape, hassoc]
    exact lastParsed_last parseCm j (l₁.map f ++ (j, a) :: l₂.map f)
      (l₃.map f) b hkeys3

/-- Witness for C10: a concrete duplicated identifier 5 with payloads "x"
then "y": no error, and "y" wins. -/
theorem frost_c10_witness :
    FZ.create_signing_package_internal 257 (fun _ => .ok 0) (fun s => .ok s)
        (fun _ _ _ => .ok "rp") (fun p => hexEncode p.2) (fun r => r)
        (([] : List FZ.CommitmentInfo) ++ FZ.CommitmentInfo.mk 5 "x" ::
          (([] : List FZ.CommitmentInfo) ++ FZ.CommitmentInfo.mk 5 "y" :: []))
        "aa" "pkp" (fun _ => 0) =
      FZ.create_signing_package_internal 257 (fun _ => .ok 0) (fun s => .ok s)
        (fun _ _ _ => .ok "rp") (fun p => hexEncode p.2) (fun r => r)
        (([] : List FZ.CommitmentInfo) ++
          (([] : List FZ.CommitmentInfo) ++ FZ.CommitmentInfo.mk 5 "y" :: []))
        "aa" "pkp" (fun _ => 0) ∧
    ∃ m, buildMapM (fun s => Except.ok s)
        ((([] : List FZ.CommitmentInfo) ++ FZ.CommitmentInfo.mk 5 "x" ::
          (([] : List FZ.CommitmentInfo) ++
            FZ.CommitmentInfo.mk 5 "y" :: [])).map
            (fun c => (c.identifier, c.commitment))) = .ok m ∧
      mlookup 5 m = (Except.ok "y" : Except String String).toOption :=
  frost_c10_duplicate_collapse 257 (fun _ => .ok 0) (fun s => .ok s)
    (fun _ _ _ => .ok "rp") (fun p => hexEncode p.2) (fun r => r) "aa" "pkp"
    (fun _ => 0) [] [] [] 5 "x" "y" (by decide) (by decide)

/-- C2: for commitment and signature-share lists with pairwise-distinct
identifiers whose entries are well-formed, permuting the input order changes
nothing: `create_signing_package_internal` builds the same sorted map, hence
byte-identical signing-package and randomizer outputs (the RNG stream being
equal), and `aggregate_internal` likewise produces bit-identical signature
output, for every choice of the external serde parsers, constructors and
serializers. -/
theorem frost_c2_permutation_invariance (q : ℕ)
    {Cm Rand Sh Pkg Rand₂ Sig : Type}
    (parsePkp : String → Except String (ZMod q))
    (parseCm : String → Except String Cm)
    (newRP : ZMod q → List (ℕ × Cm) × List ℕ → (ℕ → ℕ) → Except String Rand)
    (serPkg : List (ℕ × Cm) × List ℕ → String) (serRand : Rand → String)
    (commitments commitments' : List FZ.CommitmentInfo)
    (messageHex pkpJson : String) (rng : ℕ → ℕ)
    (parsePkg : String → Except String Pkg)
    (parsePkp₂ : String → Except String (ZMod q))
    (parseRand : String → Except String Rand₂)
    (parseShare : String → Except String Sh)
    (aggCore : Pkg → List (ℕ × Sh) → ZMod q → Rand₂ → Except String Sig)
    (serSig : Sig → List ℕ) (serRand₂ : Rand₂ → String)
    (shares shares' : List FZ.SignatureShareInfo)
    (pkgJson pkpJson₂ randJson : String)
    (hcp : commitments.Perm commitments')
    (hcnd : (commitments.map FZ.CommitmentInfo.identifier).Nodup)
    (hcok : ∀ ci ∈ commitments,
      ci.identifier ≠ 0 ∧ (parseCm ci.commitment).isOk = true)
    (hsp : shares.Perm shares')
    (hsnd : (shares.map FZ.SignatureShareInfo.identifier).Nodup)
    (hsok : ∀ si ∈ shares,
      si.identifier ≠ 0 ∧ (parseShare si.share).isOk = true) :
    FZ.create_signing_package_internal q parsePkp parseCm newRP serPkg
        serRand commitments messageHex pkpJson rng =
      FZ.create_signing_package_internal q parsePkp parseCm newRP serPkg
        serRand commitments' messageHex pkpJson rng ∧
    FZ.aggregate_internal q parsePkg parsePkp₂ parseRand parseShare aggCore
        serSig serRand₂ shares pkgJson pkpJson₂ randJson =
      FZ.aggregate_internal q parsePkg parsePkp₂ parseRand parseShare aggCore
        serSig serRand₂ shares' pkgJson pkpJson₂ randJson := by
  constructor
  · have hbuild : buildMapM parseCm
        (commitments.map (fun c => (c.identifier, c.commitment))) =
        buildMapM parseCm
          (commitments'.map (fun c => (c.identifier, c.commitment))) := by
      apply buildMapM_perm parseCm
        (hcp.map (fun c => (c.identifier, c.commitment)))
      · show (List.map Prod.fst
          (commitments.map (fun c => (c.identifier, c.commitment)))).Nodup
        rw [List.map_map]
        exact hcnd
      · intro kv hkv
        obtain ⟨ci, hci, hfk⟩ := List.mem_map.mp hkv
        rw [← hfk]
        exact hcok ci hci
    simp only [FZ.create_signing_package_internal]
    rw [hbuild]
  · have hbuild : buildMapM parseShare
        (shares.map (fun s => (s.identifier, s.share))) =
        buildMapM parseShare
          (shares'.map (fun s => (s.identifier, s.share))) := by
      apply buildMapM_perm parseShare
        (hsp.map (fun s => (s.identifier, s.share)))
      · show (List.map Prod.fst
          (shares.map (fun s => (s.identifier, s.share)))).Nodup
        rw [List.map_map]
        exact hsnd
      · intro kv hkv
        obtain ⟨si, hsi, hfk⟩ := List.mem_map.mp hkv
        rw [← hfk]
        exact hsok si hsi
    simp only [FZ.aggregate_internal]
    rw [hbuild]

/-- Witness for C2: two concrete two-entry lists in both orders. -/
theorem frost_c2_witness :
    FZ.create_signing_package_internal 257 (fun _ => .ok 0) (fun s => .ok s)
        (fun _ _ _ => .ok "rp") (fun p => hexEncode p.2) (fun r => r)
        [FZ.CommitmentInfo.mk 1 "aa", FZ.CommitmentInfo.mk 2 "bb"] "cc" "pkp"
        (fun _ => 0) =
      FZ.create_signing_package_internal 257 (fun _ => .ok 0) (fun s => .ok s)
        (fun _ _ _ => .ok "rp") (fun p => hexEncode p.2) (fun r => r)
        [FZ.CommitmentInfo.mk 2 "bb", FZ.CommitmentInfo.mk 1 "aa"] "cc" "pkp"
        (fun _ => 0) ∧
    FZ.aggregate_internal 257 (fun _ => .ok "pkg") (fun _ => .ok 0)
        (fun _ => .ok "rd") (fun s => .ok s) (fun _ _ _ _ => .ok [1, 2])
        (fun s => s) (fun r => r)
        [FZ.SignatureShareInfo.mk 1 "s1", FZ.SignatureShareInfo.mk 2 "s2"]
        "pj" "kj" "rj" =
      FZ.aggregate_internal 257 (fun _ => .ok "pkg") (fun _ => .ok 0)
        (fun _ => .ok "rd") (fun s => .ok s) (fun _ _ _ _ => .ok [1, 2])
        (fun s => s) (fun r => r)
        [FZ.SignatureShareInfo.mk 2 "s2", FZ.SignatureShareInfo.mk 1 "s1"]
        "pj" "kj" "rj" :=
  frost_c2_permutation_invariance 257 (fun _ => .ok 0) (fun s => .ok s)
    (fun _ _ _ => .ok "rp") (fun p => hexEncode p.2) (fun r => r)
    [FZ.CommitmentInfo.mk 1 "aa", FZ.CommitmentInfo.mk 2 "bb"]
    [FZ.CommitmentInfo.mk 2 "bb", FZ.CommitmentInfo.mk 1 "aa"] "cc" "pkp"
    (fun _ => 0) (fun _ => .ok "pkg") (fun _ => .ok 0) (fun _ => .ok "rd")
    (fun s => .ok s) (fun _ _ _ _ => .ok [1, 2]) (fun s => s) (fun r => r)
    [FZ.SignatureShareInfo.mk 1 "s1", FZ.SignatureShareInfo.mk 2 "s2"]
    [FZ.SignatureShareInfo.mk 2 "s2", FZ.SignatureShareInfo.mk 1 "s1"]
    "pj" "kj" "rj" (by decide) (by decide) (by decide) (by decide)
    (by decide) (by decide)

theorem except_ok_bind {ε α β : Type} (a : α) (f : α → Except ε β) :
    (Except.ok a >>= f) = f a := rfl

theorem except_bind_assoc {ε α β γ : Type} (x : Except ε α)
    (f : α → Except ε β) (g : β → Except ε γ) :
    (x >>= f) >>= g = x >>= fun a => f a >>= g := by
  cases x <;> rfl

theorem verify_internal_factorization (q : ℕ) [Fact (Nat.Prime q)]
    (sigHex msgHex gkHex randomizerHex : String)
    (chh : ZMod q → ZMod q → List ℕ → ZMod q) :
    FW.verify_internal q sigHex msgHex gkHex randomizerHex chh =
      FW.verifyParse q sigHex msgHex gkHex randomizerHex >>= fun v =>
        Except.ok (verifyModel q v.sigZ v.sigR
          (chh v.sigR (v.gk + v.rand) v.msg) (v.gk + v.rand)) := by
  simp only [FW.verify_internal, FW.verifyParse, except_bind_assoc,
    except_ok_bind]

/-- Counterexample to C4: a malformed signature encoding ("zz" is not hex)
yields an error envelope whose code is `VERIFY_ERROR`, not
`INVALID_ENCODING`. -/
theorem frost_c4_counterexample :
    FW.verify_signature 257 "zz" msgHexC scalar0Hex scalar0Hex chC =
      .err ⟨"VERIFY_ERROR", "Invalid signature hex"⟩ ∧
    "VERIFY_ERROR" ≠ "INVALID_ENCODING" := by
  constructor
  · decide
  · decide

/-- C4 (amended): `verify_signature` distinguishes the two failure kinds,
but the error code is `VERIFY_ERROR` rather than `INVALID_ENCODING`: when
all four inputs decode (`verifyParse` succeeds) the result is the success
envelope `{valid: b}` with `b` the outcome of the Schnorr check — in
particular `{valid: false}` for a well-formed signature that does not verify
— and when any encoding is malformed the result is an error envelope with
code `VERIFY_ERROR` carrying the parse message, never `{valid: false}`. -/
theorem frost_c4_verify_error_envelope (q : ℕ) [Fact (Nat.Prime q)]
    (sigHex msgHex gkHex randomizerHex : String)
    (chh : ZMod q → ZMod q → List ℕ → ZMod q) :
    (∃ v : FW.VerifyParsed q,
      FW.verifyParse q sigHex msgHex gkHex randomizerHex = .ok v ∧
      FW.verify_signature q sigHex msgHex gkHex randomizerHex chh =
        .ok ⟨verifyModel q v.sigZ v.sigR
          (chh v.sigR (v.gk + v.rand) v.msg) (v.gk + v.rand)⟩) ∨
    (∃ m, FW.verifyParse q sigHex msgHex gkHex randomizerHex = .error m ∧
      FW.verify_signature q sigHex msgHex gkHex randomizerHex chh =
        .err ⟨"VERIFY_ERROR", m⟩) := by
  have hfact := verify_internal_factorization q sigHex msgHex gkHex
    randomizerHex chh
  cases hp : FW.verifyParse q sigHex msgHex gkHex randomizerHex with
  | ok v =>
    left
    refine ⟨v, rfl, ?_⟩
    rw [hp, except_ok_bind] at hfact
    simp only [FW.verify_signature, hfact]
  | error m =>
    right
    refine ⟨m, rfl, ?_⟩
    rw [hp] at hfact
    have herr : FW.verify_internal q sigHex msgHex gkHex randomizerHex chh =
        .error m := hfact
    simp only [FW.verify_signature, herr]

/-- Witness for C4: the all-zero signature, key and randomizer are
well-formed, so the result is a boolean envelope (here valid, since the zero
signature verifies against the zero key under the concrete challenge). -/
theorem frost_c4_witness :
    (∃ v : FW.VerifyParsed 257,
      FW.verifyParse 257 sig0Hex msgHexC scalar0Hex scalar0Hex = .ok v ∧
      FW.verify_signature 257 sig0Hex msgHexC scalar0Hex scalar0Hex chC =
        .ok ⟨verifyModel 257 v.sigZ v.sigR
          (chC v.sigR (v.gk + v.rand) v.msg) (v.gk + v.rand)⟩) ∨
    (∃ m, FW.verifyParse 257 sig0Hex msgHexC scalar0Hex scalar0Hex =
        .error m ∧
      FW.verify_signature 257 sig0Hex msgHexC scalar0Hex scalar0Hex chC =
        .err ⟨"VERIFY_ERROR", m⟩) :=
  frost_c4_verify_error_envelope 257 sig0Hex msgHexC scalar0Hex scalar0Hex
    chC

end FrostUI
